import Mathlib

/-!
# Pen editor (`src/pen.js`): a shallow embedding

The controller is embedded as pure functions over an explicit state.  The host
platform (DOM tree, selection, `document.execCommand`, serialisation of the
editable surface) is not part of the repository; what the code reads from it is
passed in as data or as the fields of a `Host` record, and what the code does to
it is recorded in a chronological trace of effects.

Strings are Lean strings; a JavaScript regular expression is embedded as a small
syntax tree together with a backtracking matcher in continuation-passing style.

Conventions of the embedding:

* a node reference is the list made of the node and its ancestors, so that
  `parentNode` is the tail and `null` is the empty list;
* a `Range` object can be held both by `ctx._range` and by the selection
  (`addRange` and `getRangeAt` work by reference): the selection is then
  `SelRange.shared`, and a mutation of `ctx._range` is seen by the selection;
* listeners are identified by a number; calling one is recorded in the trace,
  it is not run;
* a function that may raise a JavaScript exception returns `Js α`, which keeps
  the state reached when it raised;
* numbers of `menu()` are rationals;
* `String.prototype.toLowerCase` belongs to the host: it is the field `toLowerCase` of
  `Host`, known by its ASCII results (the capital letters and U+212A KELVIN SIGN are the
  only characters it turns into an ASCII character); the ASCII lower-casing that the DOM
  applies to tag and attribute names in selectors is `asciiLowerCase`.
-/

namespace PenJs

/-! ## Regular expressions (`commandsReg`, `effectNodeReg`, pen.js:9-19) -/

/-- Body of a regular expression: literal runs, character classes (a list of
inclusive ranges, a single character `c` being the range `c-c`), concatenation
and ordered alternation.  This is all the syntax the patterns of pen.js:9-19 use. -/
inductive Re where
  | lit (w : List Char)
  | cls (items : List (Char × Char))
  | seq (a b : Re)
  | alt (a b : Re)
  deriving Repr

/-- Canonicalisation of a character under the `i` flag (ECMAScript
`Canonicalize`, restricted to the ASCII letters: a non-ASCII character is never
identified with an ASCII one). -/
def canonicalize (ci : Bool) (c : Char) : Char := if ci then c.toUpper else c

/-- Membership of `d` in a character class, with or without the `i` flag. -/
def inClass (ci : Bool) (items : List (Char × Char)) (d : Char) : Bool :=
  items.any fun r =>
    (decide (r.1 ≤ d) && decide (d ≤ r.2)) ||
      (ci && ((decide (r.1 ≤ d.toLower) && decide (d.toLower ≤ r.2)) ||
              (decide (r.1 ≤ d.toUpper) && decide (d.toUpper ≤ r.2))))

/-- Consume the literal run `w` at the front of the subject; the rest of the
subject on success. -/
def litFrom (ci : Bool) : List Char → List Char → Option (List Char)
  | [], s => some s
  | _ :: _, [] => none
  | p :: ps, d :: s =>
    if canonicalize ci d = canonicalize ci p then litFrom ci ps s else none

/-- Backtracking matcher: `r.matchFrom ci s k` tries to match `r` at the front of
`s` and calls the continuation `k` on what is left; alternatives are tried left
to right. -/
def Re.matchFrom (ci : Bool) : Re → List Char → (List Char → Bool) → Bool
  | .lit w, s, k =>
    match litFrom ci w s with
    | some rest => k rest
    | none => false
  | .cls items, s, k =>
    match s with
    | d :: rest => inClass ci items d && k rest
    | [] => false
  | .seq a b, s, k => a.matchFrom ci s fun rest => b.matchFrom ci rest k
  | .alt a b, s, k => a.matchFrom ci s k || b.matchFrom ci s k

/-- A regular expression literal: body, the anchors `^` and `$` around it, and
the `i` flag. -/
structure RegExp where
  body : Re
  anchorStart : Bool
  anchorEnd : Bool
  ignoreCase : Bool

/-- Try the body at the front of `s`, then (unless anchored at the start) at
every later position. -/
def RegExp.searchFrom (r : RegExp) : List Char → Bool
  | [] => r.body.matchFrom r.ignoreCase [] fun rest => !r.anchorEnd || rest.isEmpty
  | c :: s =>
    r.body.matchFrom r.ignoreCase (c :: s) (fun rest => !r.anchorEnd || rest.isEmpty) ||
      (!r.anchorStart && r.searchFrom s)

/-- The method `RegExp.prototype.test`; also the truthiness of `str.match(re)`. -/
def RegExp.test (r : RegExp) (s : String) : Bool := r.searchFrom s.data

/-- The five dispatch categories, the keys of `commandsReg` (pen.js:9-15). -/
inductive Category where
  | block | inline | source | insert | wrap
  deriving DecidableEq, Repr

/-- The keys of `commandsReg` in the order they are written. -/
def Category.all : List Category := [.block, .inline, .source, .insert, .wrap]

/-- The pattern table `commandsReg` (pen.js:9-15). -/
def commandsReg : Category → RegExp
  | .block =>
    { body := .alt (.lit "p".data) (.alt (.seq (.lit "h".data) (.cls [('1', '6')]))
        (.alt (.lit "blockquote".data) (.lit "pre".data)))
      anchorStart := true, anchorEnd := true, ignoreCase := false }
  | .inline =>
    { body := .alt (.lit "bold".data) (.alt (.lit "italic".data) (.alt (.lit "underline".data)
        (.alt (.lit "insertorderedlist".data) (.alt (.lit "insertunorderedlist".data)
        (.alt (.lit "indent".data) (.lit "outdent".data))))))
      anchorStart := true, anchorEnd := true, ignoreCase := false }
  | .source =>
    { body := .alt (.lit "insertimage".data) (.alt (.lit "createlink".data) (.lit "unlink".data))
      anchorStart := true, anchorEnd := true, ignoreCase := false }
  | .insert =>
    { body := .alt (.lit "inserthorizontalrule".data) (.lit "insert".data)
      anchorStart := true, anchorEnd := true, ignoreCase := false }
  | .wrap =>
    { body := .lit "code".data
      anchorStart := true, anchorEnd := true, ignoreCase := false }

/-- The pattern `effectNodeReg` (pen.js:19): no anchors, flag `i`. -/
def effectNodeReg : RegExp :=
  { body := .alt (.cls [('p', 'p'), ('u', 'u'), ('b', 'b'), ('i', 'i'), ('a', 'a')])
      (.alt (.seq (.lit "h".data) (.cls [('1', '6')]))
      (.alt (.lit "blockquote".data)
      (.alt (.seq (.cls [('u', 'u'), ('o', 'o')]) (.lit "l".data)) (.lit "li".data))))
    anchorStart := false, anchorEnd := false, ignoreCase := true }

/-- The first pattern of `commandsReg`, in the given order of keys, that matches. -/
def firstMatch (order : List Category) (s : String) : Option Category :=
  order.find? fun c => (commandsReg c).test s

/-- The branches of the `if` chain in `Pen.prototype.execCommand` (pen.js:465-475). -/
inductive Branch where
  | block | overall | insert | wrap | unknown
  deriving DecidableEq, Repr

/-- Which branch of `execCommand` a (lower-cased) name takes (pen.js:465-475). -/
def execBranch (name : String) : Branch :=
  if (commandsReg .block).test name then .block
  else if (commandsReg .inline).test name || (commandsReg .source).test name then .overall
  else if (commandsReg .insert).test name then .insert
  else if (commandsReg .wrap).test name then .wrap
  else .unknown

/-- The branch of `execCommand` that handles a category. -/
def Category.branch : Category → Branch
  | .block => .block
  | .inline => .overall
  | .source => .overall
  | .insert => .insert
  | .wrap => .wrap

/-- The names listed in the five patterns of `commandsReg`. -/
def recognizedNames : List String :=
  ["p", "h1", "h2", "h3", "h4", "h5", "h6", "blockquote", "pre",
   "bold", "italic", "underline", "insertorderedlist", "insertunorderedlist", "indent", "outdent",
   "insertimage", "createlink", "unlink",
   "inserthorizontalrule", "insert",
   "code"]

/-- Denotation of a regular-expression body: the strings it matches exactly. -/
def Re.Lang (ci : Bool) : Re → List Char → Prop
  | .lit w, u => u.map (canonicalize ci) = w.map (canonicalize ci)
  | .cls items, u => ∃ d, u = [d] ∧ inClass ci items d = true
  | .seq a b, u => ∃ u₁ u₂, u = u₁ ++ u₂ ∧ a.Lang ci u₁ ∧ b.Lang ci u₂
  | .alt a b, u => a.Lang ci u ∨ b.Lang ci u

/-- The names written in the pattern of one category. -/
def Category.names : Category → List String
  | .block => ["p", "h1", "h2", "h3", "h4", "h5", "h6", "blockquote", "pre"]
  | .inline => ["bold", "italic", "underline", "insertorderedlist", "insertunorderedlist",
      "indent", "outdent"]
  | .source => ["insertimage", "createlink", "unlink"]
  | .insert => ["inserthorizontalrule", "insert"]
  | .wrap => ["code"]

/-! ## Strings -/

/-- ASCII lower-casing, the comparison the DOM uses for tag and attribute names in
selectors and in `removeAttribute` on HTML elements. -/
def asciiLowerCase (s : String) : String := ⟨s.data.map Char.toLower⟩

/-- The character U+212A KELVIN SIGN. -/
def kelvinSign : Char := Char.ofNat 0x212A

/-- Lower-casing of one character as far as ASCII results go: the ASCII capital letters map
to the small ones and U+212A KELVIN SIGN maps to `k`; these are the only characters that
`String.prototype.toLowerCase` changes into an ASCII character. -/
def lowerChar (c : Char) : Char := if c = kelvinSign then 'k' else c.toLower

/-- The string is made of ASCII characters. -/
def isAscii (t : String) : Bool := t.data.all fun c => decide (c.toNat < 128)

/-- ECMAScript `WhiteSpace` and `LineTerminator` code points: what `trim` and the
class `\s` remove or match. -/
def isWhiteSpace (c : Char) : Bool :=
  decide (c.toNat ∈ [0x09, 0x0A, 0x0B, 0x0C, 0x0D, 0x20, 0xA0, 0x1680, 0x2028, 0x2029, 0x202F,
    0x205F, 0x3000, 0xFEFF]) || (decide (0x2000 ≤ c.toNat) && decide (c.toNat ≤ 0x200A))

/-- The method `String.prototype.trim`. -/
def jsTrim (s : String) : String :=
  ⟨((s.data.dropWhile isWhiteSpace).reverse.dropWhile isWhiteSpace).reverse⟩

/-- Truthiness of a string value that may be `undefined` or `null`. -/
def truthy : Option String → Bool
  | none => false
  | some s => !s.data.isEmpty

/-! ## The document: nodes, ranges, content of the editable surface -/

/-- What the code reads of a DOM node: its identity, `nodeType`, `nodeName`, its
`href` attribute, and its index among the children of its parent. -/
inductive NodeKind where
  | element (nodeName : String) (href : Option String)
  | text
  | comment
  | document
  deriving DecidableEq, Repr

structure DomNode where
  id : Nat
  kind : NodeKind
  index : Nat
  deriving DecidableEq, Repr

def DomNode.nodeType (n : DomNode) : Nat :=
  match n.kind with
  | .element _ _ => 1
  | .text => 3
  | .comment => 8
  | .document => 9

def DomNode.nodeName (n : DomNode) : String :=
  match n.kind with
  | .element name _ => name
  | .text => "#text"
  | .comment => "#comment"
  | .document => "#document"

/-- The attribute getter `getAttribute('href')`. -/
def DomNode.getHref (n : DomNode) : Option String :=
  match n.kind with
  | .element _ href => href
  | _ => none

/-- A node reference as the code meets it: the empty list is `null`; otherwise the
node itself followed by its `parentNode`, the parent of that, and so on to the
top of the tree. -/
abbrev NodeRef := List DomNode

/-- The property `parentNode`. -/
def parentNode : NodeRef → NodeRef
  | [] => []
  | _ :: rest => rest

/-- The comparison `node === root`, where `root` is the identity of the editor element. -/
def isRoot (root : Nat) : NodeRef → Bool
  | [] => false
  | n :: _ => n.id == root

/-- A DOM `Range`: two boundary points. -/
structure Range where
  startContainer : NodeRef
  startOffset : Nat
  endContainer : NodeRef
  endOffset : Nat
  deriving DecidableEq, Repr

/-- The method `Range.collapse(toStart)`. -/
def Range.collapse (r : Range) (toStart : Bool) : Range :=
  if toStart then { r with endContainer := r.startContainer, endOffset := r.startOffset }
  else { r with startContainer := r.endContainer, startOffset := r.endOffset }

/-- The property `Range.collapsed`: both boundary points are the same. -/
def Range.collapsed (r : Range) : Bool :=
  (r.startContainer.head?.map (·.id) == r.endContainer.head?.map (·.id)) &&
    r.startOffset == r.endOffset

/-- JavaScript exceptions the code can raise. -/
inductive JsError where
  | typeError (what : String)
  | invalidNodeTypeError
  deriving DecidableEq, Repr

/-- The method `Range.selectNode(node)`: the range becomes the slot of `node` in its parent;
a node without a parent is rejected. -/
def Range.selectNode (r : Range) (node : NodeRef) : Except JsError Range :=
  match node with
  | n :: p :: rest =>
    .ok { r with startContainer := p :: rest, startOffset := n.index,
                 endContainer := p :: rest, endOffset := n.index + 1 }
  | _ => .error .invalidNodeTypeError

/-- The range of the host selection (`sel.rangeCount && sel.getRangeAt(0)`).  A selection
holds its range by reference: `shared` says it holds the very object that `ctx._range`
refers to, `own` that it holds another object. -/
inductive SelRange where
  | empty
  | shared
  | own (r : Range)
  deriving DecidableEq, Repr

/-- Content of the editable surface. -/
inductive Html where
  | text (s : String)
  | elem (tag : String) (attrs : List (String × String)) (children : List Html)
  deriving Repr

mutual
/-- The method `removeAttribute(attr)` on every element of a subtree; on an HTML element
the name is lower-cased (ASCII) before it is looked up. -/
def Html.removeAttribute (attr : String) : Html → Html
  | .text s => .text s
  | .elem t as cs =>
    .elem t (as.filter fun kv => kv.1 != asciiLowerCase attr) (removeAttributeAll attr cs)
/-- Remove `attr` wherever it occurs in a forest: the loop of pen.js:487-489 over
`querySelectorAll('[attr]')`. -/
def removeAttributeAll (attr : String) : List Html → List Html
  | [] => []
  | h :: t => h.removeAttribute attr :: removeAttributeAll attr t
end

mutual
/-- Remove from a subtree every element named `tag`. -/
def Html.removeTag (tag : String) : Html → Html
  | .text s => .text s
  | .elem t as cs => .elem t as (removeTagAll tag cs)
/-- Remove from a forest every element named `tag`: the loop of pen.js:492-494 over
`querySelectorAll(tag)`. -/
def removeTagAll (tag : String) : List Html → List Html
  | [] => []
  | .text s :: t => .text s :: removeTagAll tag t
  | .elem n as cs :: t =>
    if asciiLowerCase n == asciiLowerCase tag then removeTagAll tag t
    else (Html.elem n as cs).removeTag tag :: removeTagAll tag t
end

mutual
/-- Number of elements named `tag` in a subtree. -/
def Html.countTag (tag : String) : Html → Nat
  | .text _ => 0
  | .elem t _ cs => (if asciiLowerCase t == tag then 1 else 0) + countTagAll tag cs
/-- Number of elements named `tag` in a forest (`querySelectorAll(tag).length`). -/
def countTagAll (tag : String) : List Html → Nat
  | [] => 0
  | h :: t => h.countTag tag + countTagAll tag t
end

mutual
/-- Does some element of the subtree match the selector `[attr]`?  On an HTML element the
name of the selector is lower-cased (ASCII) before it is compared. -/
def Html.hasAttribute (attr : String) : Html → Bool
  | .text _ => false
  | .elem _ as cs => as.any (fun kv => kv.1 == asciiLowerCase attr) || hasAttributeAny attr cs
/-- Does some element of the forest match the selector `[attr]`? -/
def hasAttributeAny (attr : String) : List Html → Bool
  | [] => false
  | h :: t => h.hasAttribute attr || hasAttributeAny attr t
end

/-- State owned by the host platform that the controller reads and writes. -/
structure Dom where
  /-- Children of the editor element. -/
  content : List Html := []
  /-- The flag `editor.classList.contains('pen-placeholder')`. -/
  penPlaceholder : Bool := false
  /-- The range of the selection. -/
  sel : SelRange := .empty
  /-- The property `focusNode` of the selection. -/
  focusNode : NodeRef := []
  /-- Listeners attached at platform level: target, event type, listener. -/
  attached : List (Nat × String × Nat) := []

/-- A bounding box (`getBoundingClientRect`). -/
structure Rect where
  top : ℚ
  left : ℚ
  width : ℚ
  height : ℚ

/-- The rule at index 0 of the stylesheet that positions the pointer of the toolbar. -/
inductive PointerRule where
  | leftPx (left : ℚ)
  | leftHalf
  deriving DecidableEq, Repr

/-- The link input of the toolbar. -/
structure LinkInput where
  shown : Bool
  value : String
  deriving DecidableEq, Repr

/-- The toolbar element `ctx._menu` and the closure variables of `initEvents`. -/
structure Menu where
  /-- The style `display` is `block` (true) or `none` (false). -/
  shown : Bool := false
  top : ℚ := 0
  left : ℚ := 0
  /-- The class `pen-menu-below`. -/
  below : Bool := false
  /-- The rules of `ctx._stylesheet`; `none` before the stylesheet is created. -/
  stylesheet : Option (List PointerRule) := none
  /-- Action names whose icon carries the class `active`. -/
  active : List String := []
  /-- The link input; it exists when the toolbar has a `createlink` icon. -/
  input : Option LinkInput := none
  /-- The variable `selecting` of `initEvents`. -/
  selecting : Bool := false
  /-- The pending timer of `toggleMenu`, with its delay. -/
  timer : Option Nat := none

/-- An observable effect, in the order the code produces them. -/
inductive Effect where
  /-- A call `document.execCommand(cmd, false, val)`, with the range the selection holds at
  that moment. -/
  | exec (cmd : String) (val : Option String) (sel : Option Range)
  /-- A call `utils.log(message, force)`. -/
  | log (message : String) (force : Bool)
  /-- A call `listener.apply(ctx, args)` of an internal listener, with the value of
  `ctx._prevContent` the listener can see. -/
  | listener (l : Nat) (type : String) (args : List String) (snapshot : String)
  deriving DecidableEq, Repr

/-- An object used as a map from event type to listeners, keys in insertion order. -/
abbrev EventMap := List (String × List Nat)

/-- The controller `ctx` (an instance of `Pen`), the host state it works on, and the
trace of its effects. -/
structure Pen where
  /-- Identity of `config.editor`. -/
  editor : Nat := 0
  /-- The option `config.list`: the action names that have a toolbar icon. -/
  list : List String := ["blockquote", "h2", "h3", "p", "code", "insertorderedlist",
    "insertunorderedlist", "inserthorizontalrule", "indent", "outdent", "bold", "italic",
    "underline", "createlink"]
  cleanAttrs : List String := ["id", "class", "style", "name"]
  cleanTags : List String := ["script"]
  _range : Option Range := none
  _prevContent : String := ""
  _placeholder : Option String := none
  _events : EventMap := [("change", [])]
  _eventTargets : Option (List Nat) := none
  _eventsCache : Option (List (Option EventMap)) := none
  menu : Menu := {}
  dom : Dom := {}
  trace : List Effect := []

/-- Host functions the controller calls.  `String.prototype.toLowerCase` is one of them;
what is known of it is the field `toLowerCase_ascii`: a string lower-cases to a given ASCII
string exactly when it has as many characters and each of them is the corresponding
character, its capital letter, or U+212A KELVIN SIGN for `k`. -/
structure Host where
  /-- The primitive `document.execCommand(cmd, false, val)`: its result and what it does to
  the document. -/
  execCommand : String → Option String → Dom → Bool × Dom
  /-- The getter `editor.innerHTML`. -/
  innerHTML : List Html → String
  /-- The getter `editor.innerText`. -/
  innerText : List Html → String
  /-- The setter `editor.innerHTML = html`. -/
  parseHTML : String → List Html
  /-- The method `getBoundingClientRect` of a range. -/
  boundingRect : Range → Rect
  /-- The properties `clientWidth` and `clientHeight` of the displayed toolbar. -/
  clientWidth : ℚ
  clientHeight : ℚ
  /-- The string value of a selection that holds the given range (`'' + ctx._sel`). -/
  rangeText : Range → String
  /-- The method `String.prototype.toLowerCase`. -/
  toLowerCase : String → String
  /-- The ASCII results of `toLowerCase`. -/
  toLowerCase_ascii : ∀ s t : String, isAscii t = true →
    (toLowerCase s = t ↔ s.data.map lowerChar = t.data)

/-- Result of a function that may raise: the state reached when it raised is kept. -/
abbrev Js (α : Type) := Except (JsError × Pen) α

/-! ## Logging and the host primitive (pen.js:53-56, 98-105) -/

/-- The function `utils.log(message, force)`. -/
def log (pen : Pen) (message : String) (force : Bool) : Pen :=
  { pen with trace := pen.trace ++ [.log message force] }

/-- The method `getRange` (pen.js:437-440). -/
def getRange (pen : Pen) : Option Range :=
  match pen.dom.sel with
  | .empty => none
  | .shared => pen._range
  | .own r => some r

/-- The assignment `ctx._range = ctx.getRange()` (pen.js:173, 226). -/
def captureRange (pen : Pen) : Pen :=
  match pen.dom.sel with
  | .empty => { pen with _range := none }
  | .shared => pen
  | .own r => { pen with _range := some r, dom := { pen.dom with sel := .shared } }

/-- The method `setRange()` called without argument (pen.js:442-454). -/
def setRange (pen : Pen) : Pen :=
  match pen._range with
  | some _ =>
    -- sel.removeAllRanges(); sel.addRange(this._range)
    { pen with dom := { pen.dom with sel := .shared } }
  | none =>
    match pen.dom.sel with
    | .own r =>
      -- range = this.getRange(); range.collapse(false); the selection keeps that object
      { pen with dom := { pen.dom with sel := .own (r.collapse false) } }
    | .shared => pen
    | .empty => pen

/-- The function `commandOverall(ctx, cmd, val)` (pen.js:98-105). -/
def commandOverall (host : Host) (pen : Pen) (cmd : String) (val : Option String) : Pen :=
  let message := " to exec 「" ++ cmd ++ "」 command" ++
    (if truthy val then " with value: " ++ val.getD "" else "")
  let res := host.execCommand cmd val pen.dom
  let pen := { pen with dom := res.2, trace := pen.trace ++ [.exec cmd val (getRange pen)] }
  if res.1 then log pen ("success" ++ message) false
  else log pen ("fail" ++ message) true

/-! ## Walking up from the selection (pen.js:324-345) -/

/-- The test `node.parentNode !== root` for a node that is not `null`. -/
def parentIsNotRoot (root : Nat) (node : NodeRef) : Bool := !isRoot root (parentNode node)

/-- The first loop of `currentNode` (pen.js:329). -/
def toElement (root : Nat) : NodeRef → NodeRef
  | [] => []
  | n :: rest =>
    if n.nodeType ≠ 1 ∧ parentIsNotRoot root (n :: rest) = true then toElement root rest
    else n :: rest

/-- The second loop of `currentNode` (pen.js:330), when `byRoot` is truthy. -/
def toRootChild (root : Nat) : NodeRef → NodeRef
  | [] => []
  | n :: rest =>
    if parentIsNotRoot root (n :: rest) = true then toRootChild root rest else n :: rest

/-- The walk of `currentNode` from the start container (pen.js:328-331). -/
def walkUp (root : Nat) (byRoot : Bool) (node : NodeRef) : NodeRef :=
  if isRoot root node then node
  else
    let node := toElement root node
    if byRoot then toRootChild root node else node

/-- The function `currentNode(ctx, byRoot)` (pen.js:324-332). -/
def currentNode (pen : Pen) (byRoot : Bool) : Js (Pen × NodeRef) :=
  -- ctx._range = ctx._range || ctx.getRange()
  let pen := if pen._range.isSome then pen else captureRange pen
  match pen._range with
  | none => .error (.typeError "startContainer", pen)
  | some r => .ok (pen, walkUp pen.editor byRoot r.startContainer)

/-- The loop of `effectNode` (pen.js:338-343). -/
def effectLoop (root : Nat) : NodeRef → Option (List DomNode)
  | [] => none
  | n :: rest =>
    if n.id == root then some []
    else
      match effectLoop root rest with
      | none => none
      | some nodes => some (if effectNodeReg.test n.nodeName then n :: nodes else nodes)

/-- The function `effectNode(ctx, el)` (pen.js:335-345); `none` when it raises (it reads
`nodeName` of `null` after walking off the top of the tree). -/
def effectNode (root : Nat) (el : NodeRef) : Option (List DomNode) :=
  match el with
  | [] => some []
  | _ => effectLoop root el

/-- The function `effectNode(ctx, el, true)`: node names, lower-cased. -/
def effectNodeNames (host : Host) (root : Nat) (el : NodeRef) : Option (List String) :=
  (effectNode root el).map fun nodes => nodes.map fun n => host.toLowerCase n.nodeName

/-! ## Internal listeners and change detection (pen.js:297-304, 413-435) -/

/-- The function `triggerListener(ctx, type, ...args)` (pen.js:298-304). -/
def triggerListener (pen : Pen) (type : String) (args : List String) : Pen :=
  match pen._events.lookup type with
  | none => pen
  | some listeners =>
    { pen with trace := pen.trace ++
        listeners.map fun l => Effect.listener l type args pen._prevContent }

/-- The method `isEmpty()` on the editor (pen.js:413-416). -/
def isEmpty (host : Host) (pen : Pen) : Bool :=
  let innerText := host.innerText pen.dom.content
  !(innerText.data.isEmpty || !(jsTrim innerText).data.isEmpty ||
    countTagAll "img" pen.dom.content != 0)

/-- The method `getContent()` (pen.js:418-422). -/
def getContent (host : Host) (pen : Pen) : String :=
  if pen.dom.penPlaceholder || isEmpty host pen then "" else host.innerHTML pen.dom.content

/-- The method `checkContentChange()` (pen.js:430-435). -/
def checkContentChange (host : Host) (pen : Pen) : Pen :=
  let prevContent := pen._prevContent
  let currentContent := getContent host pen
  if prevContent = currentContent then pen
  else triggerListener { pen with _prevContent := currentContent } "change"
    [currentContent, prevContent]

/-- The method `placeholder()` called without argument (pen.js:400-411). -/
def placeholder (host : Host) (pen : Pen) : Pen :=
  if truthy pen._placeholder && (pen.dom.penPlaceholder || isEmpty host pen) then
    { pen with dom := { pen.dom with content := host.parseHTML (pen._placeholder.getD ""),
                                     penPlaceholder := true } }
  else { pen with dom := { pen.dom with penPlaceholder := false } }

/-- The argument of `cleanContent`; a missing list is the empty list. -/
structure CleanOptions where
  cleanAttrs : List String := []
  cleanTags : List String := []

/-- The method `cleanContent(options)` (pen.js:482-500). -/
def cleanContent (host : Host) (pen : Pen) (options : Option CleanOptions) : Pen :=
  let options := options.getD { cleanAttrs := pen.cleanAttrs, cleanTags := pen.cleanTags }
  let content := options.cleanAttrs.foldl (fun c attr => removeAttributeAll attr c) pen.dom.content
  let content := options.cleanTags.foldl (fun c tag => removeTagAll tag c) content
  let pen := { pen with dom := { pen.dom with content := content } }
  checkContentChange host (placeholder host pen)

/-! ## Commands (pen.js:107-124, 462-478) -/

/-- The function `commandInsert(ctx, name)` (pen.js:107-113). -/
def commandInsert (host : Host) (pen : Pen) (name : String) : Js Pen :=
  match currentNode pen false with
  | .error e => .error e
  | .ok (pen, node) =>
    match node, pen._range with
    | [], _ => .ok pen
    | _, none => .error (.typeError "selectNode", pen)
    | n :: rest, some r =>
      match r.selectNode (n :: rest) with
      | .error e => .error (e, pen)
      | .ok r => .ok (commandOverall host { pen with _range := some (r.collapse false) } name none)

/-- The function `commandBlock(ctx, name)` (pen.js:115-119). -/
def commandBlock (host : Host) (pen : Pen) (name : String) : Js Pen :=
  match currentNode pen false with
  | .error e => .error e
  | .ok (pen, node) =>
    match effectNodeNames host pen.editor node with
    | none => .error (.typeError "nodeName", pen)
    | some list =>
      let name := if list.contains name then "p" else name
      .ok (commandOverall host pen "formatblock" (some name))

/-- The function `commandWrap(ctx, tag)` (pen.js:121-124). -/
def commandWrap (host : Host) (pen : Pen) (tag : String) : Pen :=
  let selText :=
    match getRange pen with
    | some range => host.rangeText range
    | none => ""
  let val := "<" ++ tag ++ ">" ++ selText ++ "</" ++ tag ++ ">"
  commandOverall host pen "insertHTML" (some val)

/-- The method `execCommand(name, value)` (pen.js:462-478). -/
def execCommand (host : Host) (pen : Pen) (name : String) (value : Option String) : Js Pen :=
  let name := host.toLowerCase name
  let pen := setRange pen
  let dispatched : Js Pen :=
    match execBranch name with
    | .block => commandBlock host pen name
    | .overall => .ok (commandOverall host pen name value)
    | .insert => commandInsert host pen name
    | .wrap => .ok (commandWrap host pen name)
    | .unknown =>
      .ok (log pen ("can not find command function for name: " ++ name ++
        (if truthy value then ", value: " ++ value.getD "" else "")) true)
  match dispatched with
  | .error e => .error e
  | .ok pen =>
    if name = "indent" then .ok (checkContentChange host pen)
    else .ok (cleanContent host pen (some { cleanAttrs := ["style"] }))

/-- The host calls recorded in a trace: operation, value, and the range of the selection
at the time of the call. -/
def hostCalls (trace : List Effect) : List (String × Option String × Option Range) :=
  trace.filterMap fun e =>
    match e with
    | .exec cmd val sel => some (cmd, val, sel)
    | _ => none

/-- The calls of internal listeners recorded in a trace. -/
def listenerCalls (trace : List Effect) : List Effect :=
  trace.filter fun e =>
    match e with
    | .listener _ _ _ _ => true
    | _ => false

/-! ## Vocabulary for the statements about commands -/

/-- The range `execCommand` works on once `setRange()` has run: the captured `ctx._range`
or, when none was captured, the range of the selection collapsed to its end. -/
def restoredRange (pen : Pen) : Option Range :=
  match pen._range with
  | some r => some r
  | none =>
    match pen.dom.sel with
    | .own r => some (r.collapse false)
    | _ => none

/-- The chain from a node up to, and excluding, the editor element. -/
def belowRoot (root : Nat) (node : NodeRef) : List DomNode :=
  node.takeWhile fun n => n.id != root

/-- The node is an element whose node name, lower-cased by `toLowerCase`, is `t`. -/
def isElementNamed (host : Host) (t : String) (n : DomNode) : Bool :=
  match n.kind with
  | .element name _ => host.toLowerCase name == t
  | _ => false

/-- Some node of the list is an element whose lower-cased node name is `t`. -/
def hasTag (host : Host) (t : String) (nodes : List DomNode) : Bool :=
  nodes.any (isElementNamed host t)

/-- The node is the editor element or lies inside it. -/
def inside (root : Nat) (node : NodeRef) : Bool := node.any fun n => n.id == root

/-- The node lies inside the editor element and is not that element. -/
def strictlyInside (root : Nat) (node : NodeRef) : Bool := inside root node && !isRoot root node

/-- The collapsed range at the point immediately after the node `n` in its parent. -/
def pointAfter (n : DomNode) (parent : NodeRef) : Range :=
  { startContainer := parent, startOffset := n.index + 1,
    endContainer := parent, endOffset := n.index + 1 }

/-! ## Event registry (pen.js:280-322, 395-398) -/

/-- The assignment `obj[key] = value` on an object used as a map. -/
def EventMap.assign (m : EventMap) (key : String) (value : List Nat) : EventMap :=
  if m.any (fun kv => kv.1 == key) then m.map fun kv => if kv.1 == key then (key, value) else kv
  else m ++ [(key, value)]

/-- The assignment `arr[i] = value`; an index beyond the length leaves holes. -/
def arrayAssign {α : Type} (arr : List (Option α)) (i : Nat) (value : α) : List (Option α) :=
  if i < arr.length then arr.set i (some value)
  else arr ++ List.replicate (i - arr.length) none ++ [some value]

/-- The host method `target.addEventListener(type, listener, false)`: a listener already
attached for the same target and type is not attached twice. -/
def addEventListener (attached : List (Nat × String × Nat)) (target : Nat) (type : String)
    (listener : Nat) : List (Nat × String × Nat) :=
  if attached.contains (target, type, listener) then attached
  else attached ++ [(target, type, listener)]

/-- The host method `target.removeEventListener(type, listener, false)`. -/
def removeEventListener (attached : List (Nat × String × Nat)) (target : Nat) (type : String)
    (listener : Nat) : List (Nat × String × Nat) :=
  attached.filter fun e => e != (target, type, listener)

/-- The function `addListener(ctx, target, type, listener)` (pen.js:280-295). -/
def addListener (pen : Pen) (target : Nat) (type : String) (listener : Nat) : Pen :=
  match pen._events.lookup type with
  | some listeners => { pen with _events := pen._events.assign type (listeners ++ [listener]) }
  | none =>
    let targets := pen._eventTargets.getD []
    let cache := pen._eventsCache.getD []
    let found := targets.indexOf target
    let index := if found < targets.length then found else targets.length
    let targets := if found < targets.length then targets else targets ++ [target]
    let events := ((cache.get? index).join).getD []
    let listeners := (events.lookup type).getD []
    let cache := arrayAssign cache index (events.assign type (listeners ++ [listener]))
    { pen with _eventTargets := some targets, _eventsCache := some cache,
               dom := { pen.dom with
                 attached := addEventListener pen.dom.attached target type listener } }

/-- The method `on(type, listener)` (pen.js:395-398). -/
def Pen.on (pen : Pen) (type : String) (listener : Nat) : Pen :=
  addListener pen pen.editor type listener

/-- The innermost loop of `removeAllListeners` (pen.js:314-316); it raises when the
target is `undefined`. -/
def detachListeners (target : Option Nat) (type : String) :
    List Nat → List (Nat × String × Nat) → List (Nat × String × Nat) × Option JsError
  | [], attached => (attached, none)
  | l :: ls, attached =>
    match target with
    | none => (attached, some (.typeError "removeEventListener"))
    | some t => detachListeners target type ls (removeEventListener attached t type l)

/-- The loop over the event types recorded for one target (pen.js:313-317). -/
def detachEvents (target : Option Nat) :
    EventMap → List (Nat × String × Nat) → List (Nat × String × Nat) × Option JsError
  | [], attached => (attached, none)
  | (type, listeners) :: rest, attached =>
    match detachListeners target type listeners attached with
    | (attached, some e) => (attached, some e)
    | (attached, none) => detachEvents target rest attached

/-- The loop over `ctx._eventsCache` (pen.js:311-318), from index `i`. -/
def detachCache (targets : List Nat) :
    Nat → List (Option EventMap) → List (Nat × String × Nat) →
      List (Nat × String × Nat) × Option JsError
  | _, [], attached => (attached, none)
  | i, none :: rest, attached => detachCache targets (i + 1) rest attached
  | i, some events :: rest, attached =>
    match detachEvents (targets.get? i) events attached with
    | (attached, some e) => (attached, some e)
    | (attached, none) => detachCache targets (i + 1) rest attached

/-- The function `removeAllListeners(ctx)` (pen.js:306-322).  It is called as a plain
function (pen.js:627) in a script that is not in strict mode, so `this` is the global
object: `thisEvents` is the property `_events` of the global object, and the first loop
empties the lists of that object. -/
def removeAllListeners (thisEvents : Option EventMap) (pen : Pen) : Option EventMap × Js Pen :=
  let thisEvents := thisEvents.map fun m => m.map fun kv => (kv.1, ([] : List Nat))
  match pen._eventsCache with
  | none => (thisEvents, .ok pen)
  | some cache =>
    match detachCache (pen._eventTargets.getD []) 0 cache pen.dom.attached with
    | (attached, some e) =>
      (thisEvents, .error (e, { pen with dom := { pen.dom with attached := attached } }))
    | (attached, none) =>
      (thisEvents, .ok { pen with dom := { pen.dom with attached := attached },
                                  _eventTargets := some [], _eventsCache := some [] })

/-- The state a run ends in, whether it returned or raised. -/
def finalState (result : Js Pen) : Pen :=
  match result with
  | .ok pen => pen
  | .error e => e.2

/-! ## Toolbar (pen.js:134-198, 503-611) -/

/-- The function `initToolbar(ctx)` (pen.js:134-149): one icon for each name of
`config.list`, and the link input when `createlink` is one of them. -/
def initToolbar (pen : Pen) : Pen :=
  let input : Option LinkInput :=
    if pen.list.contains "createlink" then some { shown := false, value := "" } else none
  { pen with menu := { shown := false, input := input } }

/-- The closure `highlight(str)` (pen.js:522-526): the icon of class `icon-str`, if the
toolbar has one, gets the class `active`. -/
def activate (list : List String) (menu : Menu) (str : String) : Menu :=
  if list.contains str && !menu.active.contains str then
    { menu with active := menu.active ++ [str] }
  else menu

/-- The `switch` of pen.js:530-559. -/
def mappedAction (tag : String) : String :=
  if tag = "a" then "createlink"
  else if tag = "i" then "italic"
  else if tag = "u" then "underline"
  else if tag = "b" then "bold"
  else if tag = "code" then "code"
  else if tag = "ul" then "insertunorderedlist"
  else if tag = "ol" then "insertorderedlist"
  else if tag = "li" then "indent"
  else tag

/-- The body of the loop of pen.js:528-561 for one node. -/
def highlightItem (host : Host) (list : List String) (menu : Menu) (item : DomNode) :
    Except JsError Menu :=
  let tag := host.toLowerCase item.nodeName
  if tag = "a" then
    match menu.input with
    | none => .error (.typeError "value")
    | some input =>
      .ok (activate list { menu with input := some { input with value := item.getHref.getD "" } }
        (mappedAction tag))
  else .ok (activate list menu (mappedAction tag))

/-- The loop of pen.js:528-561. -/
def highlightLoop (host : Host) (list : List String) :
    List DomNode → Menu → Menu × Option JsError
  | [], menu => (menu, none)
  | item :: rest, menu =>
    match highlightItem host list menu item with
    | .error e => (menu, some e)
    | .ok menu => highlightLoop host list rest menu

/-- The method `highlight()` (pen.js:503-564). -/
def highlight (host : Host) (pen : Pen) : Js Pen :=
  match effectNode pen.editor pen.dom.focusNode with
  | none => .error (.typeError "nodeName", pen)
  | some effects =>
    let input : Option LinkInput := pen.menu.input.map fun _ => { shown := false, value := "" }
    let menu := { pen.menu with active := [], input := input }
    match highlightLoop host pen.list effects menu with
    | (menu, none) => .ok { pen with menu := menu }
    | (menu, some e) => .error (e, { pen with menu := menu })

/-- The method `menu()` (pen.js:567-611), in exact rational arithmetic. -/
def menu (host : Host) (pen : Pen) : Js Pen :=
  match pen._range with
  | none => .error (.typeError "getBoundingClientRect", pen)
  | some range =>
    let offset := host.boundingRect range
    let menuPadding : ℚ := 10
    let top := offset.top - menuPadding
    let left := offset.left + offset.width / 2
    let rules := pen.menu.stylesheet.getD []
    let x := left - host.clientWidth / 2
    let y := top - host.clientHeight
    let rules := if rules.length > 0 then rules.drop 1 else rules
    let rules := if x < 0 then PointerRule.leftPx left :: rules else PointerRule.leftHalf :: rules
    let x' := if x < 0 then 0 else x
    let below := decide (y < 0)
    let y' := if y < 0 then offset.top + offset.height + menuPadding else y
    .ok { pen with menu := { pen.menu with shown := true, stylesheet := some rules,
                                           below := below, top := y', left := x' } }

/-- The property `isCollapsed` of the selection. -/
def selCollapsed (pen : Pen) : Bool :=
  match getRange pen with
  | none => true
  | some r => r.collapsed

/-- The function returned by `utils.delayExec` (pen.js:58-66), here `toggleMenu`: cancel
the pending timer and start one of `delay || 1` milliseconds. -/
def toggleMenu (pen : Pen) (delay : Nat) : Pen :=
  { pen with menu := { pen.menu with timer := some (if delay = 0 then 1 else delay) } }

/-- The closure `toggle(delay)` (pen.js:172-175). -/
def toggle (pen : Pen) (delay : Nat) : Pen := toggleMenu (captureRange pen) delay

/-- The function given to `utils.delayExec` (pen.js:162-170), run when the timer expires. -/
def onTimer (host : Host) (pen : Pen) : Js Pen :=
  match pen.menu.timer with
  | none => .ok pen
  | some _ =>
    let pen := { pen with menu := { pen.menu with timer := none } }
    if !selCollapsed pen then
      match menu host pen with
      | .error e => .error e
      | .ok pen => highlight host pen
    else .ok { pen with menu := { pen.menu with shown := false } }

/-- Events of the toolbar model: the four listeners of pen.js:179-198 and the expiry of the
timer of `toggleMenu`. -/
inductive Event where
  | mousedown
  | mouseleave
  | mouseup
  | keyup (which : Nat)
  | timer
  deriving DecidableEq, Repr

/-- One step of the toolbar model: the handler of the event (pen.js:162-198). -/
def handle (host : Host) (pen : Pen) : Event → Js Pen
  | .mousedown => .ok { pen with menu := { pen.menu with selecting := true } }
  | .mouseleave =>
    let pen := if pen.menu.selecting then toggle pen 400 else pen
    .ok { pen with menu := { pen.menu with selecting := false } }
  | .mouseup =>
    let pen := if pen.menu.selecting then toggle pen 0 else pen
    .ok { pen with menu := { pen.menu with selecting := false } }
  | .keyup which =>
    if which = 8 ∧ isEmpty host pen = true then
      let pen := { pen with dom := { pen.dom with content := host.parseHTML "<p><br></p>" } }
      let pen := { pen with menu := { pen.menu with shown := false } }
      .ok (setRange pen)
    else .ok (toggle pen 400)
  | .timer => onTimer host pen

/-- Run the handlers of a sequence of events; a handler that raises does not stop the
event loop. -/
def run (host : Host) (pen : Pen) (events : List Event) : Pen :=
  events.foldl (fun p e => finalState (handle host p e)) pen

/-! ## Sample states -/

/-- The double quote. -/
def quote : String := String.singleton (Char.ofNat 34)

mutual
/-- A plain serialisation of a subtree, for the sample host. -/
def Html.outerHTML : Html → String
  | .text s => s
  | .elem t as cs =>
    "<" ++ t ++ String.join (as.map fun kv => " " ++ kv.1 ++ "=" ++ quote ++ kv.2 ++ quote) ++ ">" ++
      serialize cs ++ "</" ++ t ++ ">"
/-- A plain serialisation of a forest, for the sample host. -/
def serialize : List Html → String
  | [] => ""
  | h :: t => h.outerHTML ++ serialize t
end

mutual
/-- The text of a subtree, for the sample host. -/
def Html.textContent : Html → String
  | .text s => s
  | .elem _ _ cs => textOf cs
/-- The text of a forest, for the sample host. -/
def textOf : List Html → String
  | [] => ""
  | h :: t => h.textContent ++ textOf t
end

/-- Lower-casing of the sample host: character by character, on the ASCII letters and
U+212A KELVIN SIGN. -/
def sampleLowerCase (s : String) : String := ⟨s.data.map lowerChar⟩

/-- A sample host: its editing primitive refuses every operation and changes nothing, the
surface is serialised plainly, markup assigned to the surface is kept as one text, and the
text of a range is empty. -/
def idleHost : Host where
  execCommand := fun _ _ dom => (false, dom)
  innerHTML := serialize
  innerText := textOf
  parseHTML := fun s => [.text s]
  boundingRect := fun _ => { top := 5, left := 2, width := 6, height := 4 }
  clientWidth := 20
  clientHeight := 8
  rangeText := fun _ => ""
  toLowerCase := sampleLowerCase
  toLowerCase_ascii := fun s t _ =>
    ⟨fun h => by rw [← h]; rfl, fun h => String.ext h⟩

/-- The operation and value of every host call of a run, or `none` when the run raised. -/
def callsOf (result : Js Pen) : Option (List (String × Option String)) :=
  match result with
  | .ok pen => some ((hostCalls pen.trace).map fun c => (c.1, c.2.1))
  | .error _ => none

/-- Sample document: the editor (1) holds a heading `h1` (2) with a text (3) and a paragraph
`p` (4) with a text (5); the editor sits in the body (9). -/
def sampleEditor : NodeRef := [⟨1, .element "DIV" none, 0⟩, ⟨9, .element "BODY" none, 1⟩]
def sampleHeadingText : NodeRef :=
  ⟨3, .text, 0⟩ :: ⟨2, .element "H1" none, 0⟩ :: sampleEditor
def sampleParagraphText : NodeRef :=
  ⟨5, .text, 0⟩ :: ⟨4, .element "P" none, 1⟩ :: sampleEditor

/-- A forward selection from inside the heading to inside the paragraph. -/
def sampleSpan : Range :=
  { startContainer := sampleHeadingText, startOffset := 1,
    endContainer := sampleParagraphText, endOffset := 2 }

/-- A controller that has not captured any range, with the selection `sampleSpan`. -/
def samplePenUncaptured : Pen :=
  { editor := 1, dom := { sel := .own sampleSpan, content := [.elem "h1" [] [.text "a"],
      .elem "p" [] [.text "bc"]] } }

/-- A controller that has captured the selection `sampleSpan`. -/
def samplePenCaptured : Pen :=
  { samplePenUncaptured with _range := some sampleSpan, dom := { samplePenUncaptured.dom with
      sel := .shared } }

/-- A controller with two `change` listeners whose snapshot is out of date. -/
def samplePenStale : Pen :=
  { editor := 1, _prevContent := "old", _events := [("change", [7, 8])],
    dom := { content := [.text "new"] } }

/-- A fresh controller on which `on('change', 7)` and then `on('keyup', 8)` were called. -/
def samplePenListening : Pen :=
  (({ editor := 1 } : Pen).on "change" 7).on "keyup" 8

/-- The names of the icons that carry the class `active` at the end of a run. -/
def activeOf (result : Js Pen) : List String := (finalState result).menu.active

/-- The focus is in a text inside `<p><code>…</code></p>`; the toolbar has the default
icons, `code` among them. -/
def samplePenInCode : Pen :=
  initToolbar { editor := 1, dom := { focusNode :=
    ⟨6, .text, 0⟩ :: ⟨5, .element "CODE" none, 0⟩ :: ⟨4, .element "P" none, 0⟩ :: sampleEditor } }

/-- The focus is in a text inside `<pre>…</pre>`; the toolbar has an icon for the block
action `pre`. -/
def samplePenInPre : Pen :=
  initToolbar { editor := 1, list := ["p", "pre", "bold"], dom := { focusNode :=
    ⟨6, .text, 0⟩ :: ⟨5, .element "PRE" none, 0⟩ :: sampleEditor } }

/-- A paragraph with an inline style, the snapshot in step with it, one `change` listener. -/
def samplePenStyled : Pen :=
  { editor := 1, _events := [("change", [7])],
    _prevContent := serialize [.elem "p" [("style", "color:red")] [.text "x"]],
    dom := { content := [.elem "p" [("style", "color:red")] [.text "x"]] } }

/-- A paragraph without attributes, the snapshot in step with it, one `change` listener. -/
def samplePenPlain : Pen :=
  { editor := 1, _events := [("change", [7])], _prevContent := serialize [.elem "p" [] [.text "x"]],
    dom := { content := [.elem "p" [] [.text "x"]] } }

/-- Sample document `<p><b>text</b></p>`: the editor (1) holds a paragraph (4), which holds a
`b` element (5), which holds a text (6). -/
def sampleParagraph : NodeRef := ⟨4, .element "P" none, 0⟩ :: sampleEditor
def sampleBoldText : NodeRef := ⟨6, .text, 0⟩ :: ⟨5, .element "B" none, 0⟩ :: sampleParagraph

/-- A caret inside the text of the `b` element. -/
def sampleCaret : Range :=
  { startContainer := sampleBoldText, startOffset := 2,
    endContainer := sampleBoldText, endOffset := 2 }

/-- A controller that has captured the caret `sampleCaret`. -/
def samplePenCaret : Pen :=
  let content : List Html := [.elem "p" [] [.elem "b" [] [.text "text"]]]
  { editor := 1, _range := some sampleCaret, dom := { sel := .shared, content := content } }

/-- The exception of a run that raised. -/
def errorOf (result : Js Pen) : Option JsError :=
  match result with
  | .ok _ => none
  | .error e => some e.1

/-- The user has selected `sampleSpan` with the mouse; the toolbar is not displayed yet. -/
def samplePenSelecting : Pen :=
  let content : List Html := [.elem "h1" [] [.text "a"], .elem "p" [] [.text "bc"]]
  initToolbar { editor := 1,
                dom := { sel := .own sampleSpan, focusNode := sampleParagraphText,
                         content := content } }

/-- The state after the mouse selection was handled and the timer has expired: the
toolbar is displayed. -/
def samplePenDisplayed : Pen := run idleHost samplePenSelecting [.mousedown, .mouseup, .timer]

/-- The user then clicks inside the paragraph: the selection becomes a caret. -/
def samplePenClicked : Pen :=
  let caret : Range :=
    { startContainer := sampleParagraphText, startOffset := 1,
      endContainer := sampleParagraphText, endOffset := 1 }
  { samplePenDisplayed with dom := { samplePenDisplayed.dom with sel := .own caret } }

/-- The name `unlin` followed by U+212A KELVIN SIGN, which `toLowerCase` turns into
`unlink`. -/
def sampleKelvinName : String := "unlin" ++ String.singleton kelvinSign

/-- A caret in a text (6) inside an element (5) whose node name is `BLOC`, U+212A KELVIN
SIGN, `QUOTE`, a child of the editor (1). -/
def sampleKelvinCaret : Range :=
  let element : DomNode :=
    ⟨5, .element ("BLOC" ++ String.singleton kelvinSign ++ "QUOTE") none, 0⟩
  let text : NodeRef := ⟨6, .text, 0⟩ :: element :: sampleEditor
  { startContainer := text, startOffset := 0, endContainer := text, endOffset := 0 }

/-- A controller that has captured the caret `sampleKelvinCaret`. -/
def samplePenKelvin : Pen :=
  { editor := 1, _range := some sampleKelvinCaret, dom := { sel := .shared } }

/-! ## Link values (`strReg`, pen.js:21-25; `createlink`, pen.js:242-250) -/

/-- The atoms of the patterns of `strReg` that stand for one character: `.`, `\s`, `\w`. -/
inductive CharSet where
  | any
  | space
  | word
  deriving DecidableEq, Repr

/-- ECMAScript `LineTerminator` code points: what `.` does not match. -/
def isLineTerminator (c : Char) : Bool :=
  decide (c.toNat ∈ [0x0A, 0x0D, 0x2028, 0x2029])

/-- The class `\w`: ASCII letters, digits and the underscore. -/
def isWordChar (c : Char) : Bool := c.isAlphanum || c == '_'

/-- Membership of a character in `.`, `\s` or `\w`. -/
def CharSet.mem : CharSet → Char → Bool
  | .any, c => !isLineTerminator c
  | .space, c => isWhiteSpace c
  | .word, c => isWordChar c

/-- Body of the patterns of `strReg`: literal runs, one character of a set, a set under
`*` (greedy, or lazy for `*?`), the anchors `^` and `$`, a negative lookahead `(?!…)`, a
numbered capture group, concatenation and ordered alternation.  The quantifiers of
pen.js:21-25 are all applied to a single-character set. -/
inductive Rx where
  | chars (w : List Char)
  | one (set : CharSet)
  | star (set : CharSet) (greedy : Bool)
  | bol
  | eol
  | notAhead (r : Rx)
  | group (n : Nat) (r : Rx)
  | seq (a b : Rx)
  | alt (a b : Rx)
  deriving Repr

/-- The quantifier `+` (greedy) or `+?` (lazy) on a set: one character, then `*` or `*?`. -/
def Rx.plus (set : CharSet) (greedy : Bool) : Rx := .seq (.one set) (.star set greedy)

/-- The captures of a match attempt: group number and captured text. -/
abbrev Captures := List (Nat × List Char)

/-- Record the text of group `n`. -/
def setCapture (caps : Captures) (n : Nat) (text : List Char) : Captures :=
  (n, text) :: caps.filter fun c => c.1 != n

/-- The text of group `n`; a group that did not take part gives the empty string. -/
def getCapture (caps : Captures) (n : Nat) : List Char := (caps.lookup n).getD []

/-- Backtracking over `set*` at position `i`: a greedy star first tries to take one more
character, a lazy one first tries to stop. -/
def starFrom {α : Type} (p : Char → Bool) (greedy : Bool) :
    Nat → List Char → (Nat → List Char → Option α) → Option α
  | i, [], k => k i []
  | i, c :: s, k =>
    if greedy then
      (if p c then starFrom p greedy (i + 1) s k else none).orElse fun _ => k i (c :: s)
    else
      (k i (c :: s)).orElse fun _ => if p c then starFrom p greedy (i + 1) s k else none

/-- Backtracking matcher with captures: `r.run i s caps k` matches `r` at index `i` of the
input, where `s` is the input from that index on, and hands the index reached, the rest of
the input and the captures to the continuation `k`; the first success in backtracking
order is the result. -/
def Rx.run {α : Type} :
    Rx → Nat → List Char → Captures → (Nat → List Char → Captures → Option α) → Option α
  | .chars w, i, s, caps, k =>
    match litFrom false w s with
    | some rest => k (i + w.length) rest caps
    | none => none
  | .one set, i, s, caps, k =>
    match s with
    | c :: rest => if set.mem c then k (i + 1) rest caps else none
    | [] => none
  | .star set greedy, i, s, caps, k => starFrom set.mem greedy i s fun j rest => k j rest caps
  | .bol, i, s, caps, k => if i = 0 then k i s caps else none
  | .eol, i, s, caps, k => if s.isEmpty then k i s caps else none
  | .notAhead r, i, s, caps, k =>
    match r.run i s caps (fun _ _ _ => some ()) with
    | some _ => none
    | none => k i s caps
  | .group n r, i, s, caps, k =>
    r.run i s caps fun j rest caps' =>
      k j rest (setCapture caps' n (s.take (s.length - rest.length)))
  | .seq a b, i, s, caps, k => a.run i s caps fun j rest caps' => b.run j rest caps' k
  | .alt a b, i, s, caps, k => (a.run i s caps k).orElse fun _ => b.run i s caps k

/-- A match attempt at index `i`: the index reached, the rest of the input, the captures. -/
def Rx.matchAt (r : Rx) (i : Nat) (s : List Char) : Option (Nat × List Char × Captures) :=
  r.run i s [] fun j rest caps => some (j, rest, caps)

/-- A piece of a replacement string: literal text or a group reference `$n`. -/
inductive Piece where
  | text (s : String)
  | ref (n : Nat)
  deriving DecidableEq, Repr

/-- Expansion of a replacement string for one match. -/
def expand (template : List Piece) (caps : Captures) : List Char :=
  template.foldr (fun piece acc =>
    match piece with
    | .text s => s.data ++ acc
    | .ref n => getCapture caps n ++ acc) []

/-- The method `String.prototype.replace` with a pattern without the `g` flag, from index
`i`: the first match from the left is replaced, the rest of the input is kept. -/
def replaceFirstFrom (r : Rx) (template : List Piece) : Nat → List Char → List Char
  | i, [] =>
    match r.matchAt i [] with
    | some m => expand template m.2.2 ++ m.2.1
    | none => []
  | i, c :: s =>
    match r.matchAt i (c :: s) with
    | some m => expand template m.2.2 ++ m.2.1
    | none => c :: replaceFirstFrom r template (i + 1) s

/-- The method `String.prototype.replace` with a pattern that has the `g` flag, from index
`i`: every match is replaced; after an empty match the search moves on by one character.
The fuel bounds the number of steps; each step ends the search or moves on by at least one
character, so the length of the input plus one is enough. -/
def replaceAllFrom (r : Rx) (template : List Piece) : Nat → Nat → List Char → List Char
  | 0, _, s => s
  | fuel + 1, i, s =>
    match r.matchAt i s with
    | some m =>
      if m.1 = i then
        match s with
        | [] => expand template m.2.2
        | c :: s' => expand template m.2.2 ++ c :: replaceAllFrom r template fuel (i + 1) s'
      else expand template m.2.2 ++ replaceAllFrom r template fuel m.1 m.2.1
    | none =>
      match s with
      | [] => []
      | c :: s' => c :: replaceAllFrom r template fuel (i + 1) s'

/-- The patterns of `strReg`. -/
structure StrReg where
  whiteSpace : Rx
  mailTo : Rx
  http : Rx

/-- The table `strReg` (pen.js:21-25):
`whiteSpace` is `/(^\s+)|(\s+$)/g`,
`mailTo` is `/^(?!mailto:|.+\/|.+#|.+\?)(.*@.*\..+)$/`,
`http` is `/^(?!\w+?:\/\/|mailto:|\/|\.\/|\?|#)(.*)$/`. -/
def strReg : StrReg where
  whiteSpace :=
    .alt (.group 1 (.seq .bol (.plus .space true))) (.group 2 (.seq (.plus .space true) .eol))
  mailTo :=
    .seq .bol (.seq
      (.notAhead (.alt (.chars "mailto:".data) (.alt (.seq (.plus .any true) (.chars "/".data))
        (.alt (.seq (.plus .any true) (.chars "#".data))
          (.seq (.plus .any true) (.chars "?".data))))))
      (.seq
        (.group 1 (.seq (.star .any true) (.seq (.chars "@".data) (.seq (.star .any true)
          (.seq (.chars ".".data) (.plus .any true))))))
        .eol))
  http :=
    .seq .bol (.seq
      (.notAhead (.alt (.seq (.plus .word false) (.chars "://".data))
        (.alt (.chars "mailto:".data) (.alt (.chars "/".data) (.alt (.chars "./".data)
          (.alt (.chars "?".data) (.chars "#".data)))))))
      (.seq (.group 1 (.star .any true)) .eol))

/-- The chain of replacements of `createlink` (pen.js:245-248) on the characters of
`input.value`: strip the white space at both ends, then `'mailto:$1'`, then `'http://$1'`. -/
def normalizeLink (value : List Char) : List Char :=
  let stripped := replaceAllFrom strReg.whiteSpace [] (value.length + 1) 0 value
  let mailed := replaceFirstFrom strReg.mailTo [.text "mailto:", .ref 1] 0 stripped
  replaceFirstFrom strReg.http [.text "http://", .ref 1] 0 mailed

/-- The value `inputValue` that `createlink` passes on (pen.js:245-248). -/
def inputValue (value : String) : String := ⟨normalizeLink value.data⟩

/-- Remove the white space at the end of a string. -/
def stripEnd : List Char → List Char
  | [] => []
  | c :: t => if (c :: t).all isWhiteSpace then [] else c :: stripEnd t

/-- Remove the white space at both ends of a string. -/
def strip (s : List Char) : List Char := stripEnd (s.dropWhile isWhiteSpace)

/-! ## The matcher computes the denotation -/

theorem litFrom_eq_some (ci : Bool) (w s rest : List Char) :
    litFrom ci w s = some rest ↔
      ∃ u, s = u ++ rest ∧ u.map (canonicalize ci) = w.map (canonicalize ci) := by
  induction w generalizing s with
  | nil =>
    simp only [litFrom, Option.some.injEq, List.map_nil, List.map_eq_nil_iff]
    constructor
    · intro h; exact ⟨[], by simp [h], rfl⟩
    · rintro ⟨u, h, rfl⟩; simpa using h
  | cons p ps ih =>
    cases s with
    | nil =>
      simp only [litFrom]
      constructor
      · intro h; cases h
      · rintro ⟨u, h, hu⟩
        cases u with
        | nil => cases hu
        | cons _ _ => cases h
    | cons d s =>
      simp only [litFrom]
      split
      · rename_i hc
        rw [ih]
        constructor
        · rintro ⟨u, rfl, hu⟩
          exact ⟨d :: u, by simp, by simp [hc, hu]⟩
        · rintro ⟨u, h, hu⟩
          cases u with
          | nil => cases hu
          | cons e u =>
            simp only [List.cons_append, List.cons.injEq] at h
            simp only [List.map_cons, List.cons.injEq] at hu
            exact ⟨u, h.2, hu.2⟩
      · rename_i hc
        constructor
        · intro h; cases h
        rintro ⟨u, h, hu⟩
        exfalso
        cases u with
        | nil => cases hu
        | cons e u =>
          simp only [List.cons_append, List.cons.injEq] at h
          simp only [List.map_cons, List.cons.injEq] at hu
          exact hc (h.1 ▸ hu.1)

theorem Re.matchFrom_iff (ci : Bool) (r : Re) (s : List Char) (k : List Char → Bool) :
    r.matchFrom ci s k = true ↔ ∃ u v, s = u ++ v ∧ r.Lang ci u ∧ k v = true := by
  induction r generalizing s k with
  | lit w =>
    simp only [Re.matchFrom, Re.Lang]
    constructor
    · intro h
      split at h
      · rename_i rest hr
        obtain ⟨u, hs, hu⟩ := (litFrom_eq_some ci w s rest).1 hr
        exact ⟨u, rest, hs, hu, h⟩
      · simp at h
    · rintro ⟨u, v, hs, hu, hk⟩
      have := (litFrom_eq_some ci w s v).2 ⟨u, hs, hu⟩
      simp [this, hk]
  | cls items =>
    cases s with
    | nil =>
      simp only [Re.matchFrom, Re.Lang, false_iff, Bool.false_eq_true]
      rintro ⟨u, v, hs, ⟨d, rfl, _⟩, _⟩
      simp at hs
    | cons d rest =>
      simp only [Re.matchFrom, Re.Lang, Bool.and_eq_true]
      constructor
      · rintro ⟨h1, h2⟩
        exact ⟨[d], rest, rfl, ⟨d, rfl, h1⟩, h2⟩
      · rintro ⟨u, v, hs, ⟨e, rfl, he⟩, hk⟩
        simp only [List.singleton_append, List.cons.injEq] at hs
        obtain ⟨rfl, rfl⟩ := hs
        exact ⟨he, hk⟩
  | seq a b iha ihb =>
    simp only [Re.matchFrom, Re.Lang]
    rw [iha]
    constructor
    · rintro ⟨u, v, rfl, hu, hk⟩
      obtain ⟨u', v', rfl, hu', hk'⟩ := (ihb _ _).1 hk
      exact ⟨u ++ u', v', by simp, ⟨u, u', rfl, hu, hu'⟩, hk'⟩
    · rintro ⟨_, v, rfl, ⟨u₁, u₂, rfl, h1, h2⟩, hk⟩
      exact ⟨u₁, u₂ ++ v, by simp, h1, (ihb _ _).2 ⟨u₂, v, rfl, h2, hk⟩⟩
  | alt a b iha ihb =>
    simp only [Re.matchFrom, Re.Lang, Bool.or_eq_true]
    rw [iha, ihb]
    constructor
    · rintro (⟨u, v, hs, hu, hk⟩ | ⟨u, v, hs, hu, hk⟩)
      · exact ⟨u, v, hs, Or.inl hu, hk⟩
      · exact ⟨u, v, hs, Or.inr hu, hk⟩
    · rintro ⟨u, v, hs, hu | hu, hk⟩
      · exact Or.inl ⟨u, v, hs, hu, hk⟩
      · exact Or.inr ⟨u, v, hs, hu, hk⟩

/-- A pattern anchored on both sides tests for membership in the denotation. -/
theorem RegExp.test_anchored (r : RegExp) (hs : r.anchorStart = true) (he : r.anchorEnd = true)
    (s : String) : r.test s = true ↔ r.body.Lang r.ignoreCase s.data := by
  have key : ∀ l : List Char,
      r.body.matchFrom r.ignoreCase l (fun rest => !r.anchorEnd || rest.isEmpty) = true ↔
        r.body.Lang r.ignoreCase l := by
    intro l
    rw [Re.matchFrom_iff]
    constructor
    · rintro ⟨u, v, rfl, hu, hk⟩
      simp only [he, Bool.not_true, Bool.false_or, List.isEmpty_iff] at hk
      subst hk
      simpa using hu
    · intro h
      exact ⟨l, [], by simp, h, by simp⟩
  unfold RegExp.test
  cases h : s.data with
  | nil => simp only [RegExp.searchFrom]; exact key []
  | cons c t =>
    simp only [RegExp.searchFrom, hs, Bool.not_true, Bool.false_and, Bool.or_false]
    exact key (c :: t)

theorem digit_one_six (d : Char) : inClass false [('1', '6')] d = true ↔
    d ∈ ['1', '2', '3', '4', '5', '6'] := by
  simp only [inClass, List.any_cons, List.any_nil, Bool.or_false, Bool.false_and,
    Bool.and_eq_true, decide_eq_true_eq]
  constructor
  · rintro ⟨h1, h2⟩
    have h1' : 49 ≤ d.toNat := h1
    have h2' : d.toNat ≤ 54 := h2
    have : d = Char.ofNat d.toNat := (Char.ofNat_toNat d).symm
    rw [this]
    interval_cases d.toNat <;> decide
  · intro h
    simp only [List.mem_cons, List.mem_singleton, List.not_mem_nil, or_false] at h
    rcases h with h | h | h | h | h | h <;> subst h <;> decide

theorem canonicalize_false : canonicalize false = id := by
  funext c; simp [canonicalize]

theorem Lang_lit_false (w u : List Char) : (Re.lit w).Lang false u ↔ u = w := by
  simp [Re.Lang, canonicalize_false]

theorem block_lang (u : List Char) :
    (commandsReg .block).body.Lang false u ↔
      u ∈ ["p".data, "h1".data, "h2".data, "h3".data, "h4".data, "h5".data, "h6".data,
        "blockquote".data, "pre".data] := by
  simp only [commandsReg, Re.Lang, canonicalize_false, List.map_id, digit_one_six]
  constructor
  · rintro (h | ⟨u₁, u₂, rfl, rfl, d, rfl, hd⟩ | h | h)
    · simp [h]
    · simp only [List.mem_cons, List.mem_singleton, List.not_mem_nil, or_false] at hd
      rcases hd with h | h | h | h | h | h <;> subst h <;> decide
    · simp [h]
    · simp [h]
  · intro h
    simp only [List.mem_cons, List.mem_singleton, List.not_mem_nil, or_false] at h
    rcases h with h | h | h | h | h | h | h | h | h
    · exact Or.inl h
    · exact Or.inr (Or.inl ⟨"h".data, ['1'], h, rfl, '1', rfl, by decide⟩)
    · exact Or.inr (Or.inl ⟨"h".data, ['2'], h, rfl, '2', rfl, by decide⟩)
    · exact Or.inr (Or.inl ⟨"h".data, ['3'], h, rfl, '3', rfl, by decide⟩)
    · exact Or.inr (Or.inl ⟨"h".data, ['4'], h, rfl, '4', rfl, by decide⟩)
    · exact Or.inr (Or.inl ⟨"h".data, ['5'], h, rfl, '5', rfl, by decide⟩)
    · exact Or.inr (Or.inl ⟨"h".data, ['6'], h, rfl, '6', rfl, by decide⟩)
    · exact Or.inr (Or.inr (Or.inl h))
    · exact Or.inr (Or.inr (Or.inr h))

theorem mem_data_iff (s : String) (l : List String) : s.data ∈ l.map String.data ↔ s ∈ l := by
  simp only [List.mem_map]
  constructor
  · rintro ⟨t, ht, h⟩
    have : t = s := String.ext h
    exact this ▸ ht
  · intro h
    exact ⟨s, h, rfl⟩

/-- Each pattern of `commandsReg` matches exactly the names written in it. -/
theorem commandsReg_test_iff (c : Category) (s : String) :
    (commandsReg c).test s = true ↔ s ∈ c.names := by
  rw [RegExp.test_anchored _ (by cases c <;> rfl) (by cases c <;> rfl), ← mem_data_iff]
  cases c
  · exact block_lang s.data
  all_goals
    simp only [commandsReg, Re.Lang, canonicalize_false, List.map_id, Category.names,
      List.map_cons, List.map_nil, List.mem_cons, List.mem_singleton, List.not_mem_nil, or_false,
      or_assoc, id_eq]

theorem names_unique : ∀ c d : Category, ∀ s ∈ c.names, s ∈ d.names → c = d := by
  intro c d
  cases c <;> cases d <;> decide

theorem recognizedNames_iff (s : String) : s ∈ recognizedNames ↔ ∃ c : Category, s ∈ c.names := by
  constructor
  · intro h
    have : s ∈ Category.names .block ++ Category.names .inline ++ Category.names .source ++
        Category.names .insert ++ Category.names .wrap := h
    simp only [List.mem_append] at this
    rcases this with (((h | h) | h) | h) | h
    exacts [⟨_, h⟩, ⟨_, h⟩, ⟨_, h⟩, ⟨_, h⟩, ⟨_, h⟩]
  · rintro ⟨c, h⟩
    have : s ∈ Category.names .block ++ Category.names .inline ++ Category.names .source ++
        Category.names .insert ++ Category.names .wrap := by
      simp only [List.mem_append]
      cases c
      · exact Or.inl (Or.inl (Or.inl (Or.inl h)))
      · exact Or.inl (Or.inl (Or.inl (Or.inr h)))
      · exact Or.inl (Or.inl (Or.inr h))
      · exact Or.inl (Or.inr h)
      · exact Or.inr h
    exact this

theorem firstMatch_of_test (order : List Category) (s : String) (c : Category)
    (hc : (commandsReg c).test s = true) (hmem : c ∈ order) : firstMatch order s = some c := by
  unfold firstMatch
  cases h : order.find? (fun c => (commandsReg c).test s) with
  | none =>
    have := List.find?_eq_none.1 h c hmem
    simp [hc] at this
  | some d =>
    have hd : (commandsReg d).test s = true := by simpa using List.find?_some h
    have := names_unique d c s ((commandsReg_test_iff d s).1 hd) ((commandsReg_test_iff c s).1 hc)
    rw [this]

theorem firstMatch_of_not_test (order : List Category) (s : String)
    (hn : ∀ c, (commandsReg c).test s = false) : firstMatch order s = none := by
  unfold firstMatch
  rw [List.find?_eq_none]
  intro c _
  simp [hn c]

theorem execBranch_eq (s : String) :
    execBranch s = ((firstMatch Category.all s).map Category.branch).getD .unknown := by
  by_cases h : ∃ c, (commandsReg c).test s = true
  · obtain ⟨c, hc⟩ := h
    have hother : ∀ d, d ≠ c → (commandsReg d).test s = false := by
      intro d hd
      cases hdt : (commandsReg d).test s with
      | false => rfl
      | true =>
        exact absurd (names_unique d c s ((commandsReg_test_iff d s).1 hdt)
          ((commandsReg_test_iff c s).1 hc)) hd
    rw [firstMatch_of_test Category.all s c hc (by cases c <;> decide)]
    cases c <;> simp [execBranch, hc, hother, Category.branch]
  · have hn : ∀ c, (commandsReg c).test s = false := by
      intro c
      cases hc : (commandsReg c).test s with
      | false => rfl
      | true => exact absurd ⟨c, hc⟩ h
    rw [firstMatch_of_not_test _ _ hn]
    simp [execBranch, hn]

/-- C1: for every string, at most one of the five patterns of `commandsReg` matches it;
some pattern matches it exactly when it is one of the 22 listed names; the first match is
the same in whatever order the five patterns are tried, and the branch `execCommand` takes
is the one of that single category (or the unrecognised branch when there is none). -/
theorem commandsReg_partition (s : String) :
    (∀ c d : Category, (commandsReg c).test s = true → (commandsReg d).test s = true → c = d) ∧
    ((∃ c : Category, (commandsReg c).test s = true) ↔ s ∈ recognizedNames) ∧
    (∀ order : List Category, order.Perm Category.all →
      firstMatch order s = firstMatch Category.all s) ∧
    execBranch s = ((firstMatch Category.all s).map Category.branch).getD .unknown := by
  refine ⟨?_, ?_, ?_, execBranch_eq s⟩
  · intro c d hc hd
    exact names_unique c d s ((commandsReg_test_iff c s).1 hc) ((commandsReg_test_iff d s).1 hd)
  · rw [recognizedNames_iff]
    constructor
    · rintro ⟨c, hc⟩; exact ⟨c, (commandsReg_test_iff c s).1 hc⟩
    · rintro ⟨c, hc⟩; exact ⟨c, (commandsReg_test_iff c s).2 hc⟩
  · intro order hperm
    by_cases h : ∃ c, (commandsReg c).test s = true
    · obtain ⟨c, hc⟩ := h
      have hall : c ∈ Category.all := by cases c <;> decide
      rw [firstMatch_of_test order s c hc (hperm.mem_iff.2 hall),
        firstMatch_of_test Category.all s c hc hall]
    · have hn : ∀ c, (commandsReg c).test s = false := by
        intro c
        cases hc : (commandsReg c).test s with
        | false => rfl
        | true => exact absurd ⟨c, hc⟩ h
      rw [firstMatch_of_not_test _ _ hn, firstMatch_of_not_test _ _ hn]

/-- C1, at a concrete name and order: `insert` is matched by the insert pattern only, and
trying the patterns in reverse order still classifies it as insert. -/
theorem commandsReg_partition_witness :
    (commandsReg .insert).test "insert" = true ∧
    firstMatch [.wrap, .insert, .source, .inline, .block] "insert" = some .insert ∧
    firstMatch Category.all "insert" = some .insert :=
  have h := commandsReg_partition "insert"
  have hp : List.Perm [Category.wrap, .insert, .source, .inline, .block] Category.all := by
    decide
  have ht : (commandsReg .insert).test "insert" = true := by decide
  have hf : firstMatch Category.all "insert" = some .insert := by decide
  ⟨ht, (h.2.2.1 _ hp).trans hf, hf⟩

/-! ## Traces of the helpers -/

theorem hostCalls_append (a b : List Effect) : hostCalls (a ++ b) = hostCalls a ++ hostCalls b := by
  simp [hostCalls, List.filterMap_append]

theorem hostCalls_listeners (ls : List Nat) (type : String) (args : List String) (snap : String) :
    hostCalls (ls.map fun l => Effect.listener l type args snap) = [] := by
  induction ls with
  | nil => rfl
  | cons l ls ih => simp [hostCalls, List.filterMap_cons]

theorem log_hostCalls (pen : Pen) (m : String) (f : Bool) :
    hostCalls (log pen m f).trace = hostCalls pen.trace := by
  simp [log, hostCalls_append, hostCalls]

theorem triggerListener_hostCalls (pen : Pen) (type : String) (args : List String) :
    hostCalls (triggerListener pen type args).trace = hostCalls pen.trace := by
  unfold triggerListener
  split
  · rfl
  · simp [hostCalls_append, hostCalls_listeners]

theorem checkContentChange_hostCalls (host : Host) (pen : Pen) :
    hostCalls (checkContentChange host pen).trace = hostCalls pen.trace := by
  unfold checkContentChange
  simp only
  split
  · rfl
  · rw [triggerListener_hostCalls]

theorem placeholder_trace (host : Host) (pen : Pen) : (placeholder host pen).trace = pen.trace := by
  unfold placeholder
  split <;> rfl

theorem cleanContent_hostCalls (host : Host) (pen : Pen) (o : Option CleanOptions) :
    hostCalls (cleanContent host pen o).trace = hostCalls pen.trace := by
  unfold cleanContent
  simp only
  rw [checkContentChange_hostCalls, placeholder_trace]

theorem commandOverall_hostCalls (host : Host) (pen : Pen) (cmd : String) (val : Option String) :
    hostCalls (commandOverall host pen cmd val).trace =
      hostCalls pen.trace ++ [(cmd, val, getRange pen)] := by
  unfold commandOverall
  simp only
  split <;> (rw [log_hostCalls, hostCalls_append]; rfl)

/-! ## The chain walked by `currentNode` and `effectNode` -/

theorem effectLoop_inside (root : Nat) (node : NodeRef) (h : inside root node = true) :
    effectLoop root node =
      some ((belowRoot root node).filter fun n => effectNodeReg.test n.nodeName) := by
  induction node with
  | nil => simp [inside] at h
  | cons n rest ih =>
    by_cases hn : n.id = root
    · simp [effectLoop, belowRoot, hn]
    · have hrest : inside root rest = true := by
        simpa [inside, hn] using h
      have hne : (n.id != root) = true := by simpa using hn
      simp only [effectLoop, beq_iff_eq, hn, if_false, ih hrest, belowRoot, List.takeWhile_cons,
        hne, if_true, List.filter_cons]

theorem toElement_below (host : Host) (t : String) (root : Nat) (node : NodeRef)
    (h : isRoot root node = false) :
    hasTag host t (belowRoot root (toElement root node)) =
      hasTag host t (belowRoot root node) := by
  induction node with
  | nil => rfl
  | cons n rest ih =>
    have hn : (n.id != root) = true := by
      simpa [isRoot] using h
    unfold toElement
    split
    · rename_i hc
      have hr : isRoot root rest = false := by
        simpa [parentIsNotRoot, parentNode] using hc.2
      rw [ih hr]
      have hk : isElementNamed host t n = false := by
        have h1 := hc.1
        unfold DomNode.nodeType at h1
        unfold isElementNamed
        split <;> simp_all
      simp [belowRoot, List.takeWhile_cons, hn, hasTag, hk]
    · rfl

theorem toElement_inside (root : Nat) (node : NodeRef)
    (hin : inside root node = true) (h : isRoot root node = false) :
    inside root (toElement root node) = true ∧ toElement root node ≠ [] := by
  induction node with
  | nil => simp [inside] at hin
  | cons n rest ih =>
    have hn : ¬ n.id = root := by
      simpa [isRoot] using h
    unfold toElement
    split
    · rename_i hc
      have hr : isRoot root rest = false := by
        simpa [parentIsNotRoot, parentNode] using hc.2
      have hrest : inside root rest = true := by
        simpa [inside, hn] using hin
      exact ih hrest hr
    · exact ⟨hin, by simp⟩

theorem toLower_eq_or (c : Char) : c.toLower = c ∨ (65 ≤ c.toNat ∧ c.toNat ≤ 90) := by
  by_cases h : c.toNat ≥ 65 ∧ c.toNat ≤ 90
  · right; exact h
  · left; simp only [Char.toLower, h, if_false]

theorem toUpper_of_toLower_h (c : Char) (h : c.toLower = 'h') : c.toUpper = 'H' := by
  rcases toLower_eq_or c with h1 | ⟨h1, h2⟩
  · rw [h1] at h; subst h; decide
  · have hc : c = Char.ofNat c.toNat := (Char.ofNat_toNat c).symm
    rw [hc] at h ⊢
    interval_cases c.toNat <;> first | decide | (exact absurd h (by decide))

/-- A node name that lower-cases to a name starting with `p` or `b` is matched by
`effectNodeReg` at its first character. -/
theorem effectNodeReg_first (c : Char) (rest : List Char)
    (h : c.toLower = 'p' ∨ c.toLower = 'b') : effectNodeReg.searchFrom (c :: rest) = true := by
  rcases h with h | h <;>
    simp [RegExp.searchFrom, effectNodeReg, Re.matchFrom, inClass, h]

theorem effectNodeReg_heading (c d : Char) (hc : c.toLower = 'h')
    (hd : d.toLower ∈ ['1', '2', '3', '4', '5', '6']) :
    effectNodeReg.searchFrom [c, d] = true := by
  have hu := toUpper_of_toLower_h c hc
  have hcls : inClass true [('1', '6')] d = true := by
    simp only [List.mem_cons, List.mem_singleton, List.not_mem_nil, or_false] at hd
    rcases hd with h | h | h | h | h | h <;> simp [inClass, h]
  have hH : 'h'.toUpper = 'H' := by decide
  simp [RegExp.searchFrom, effectNodeReg, Re.matchFrom, litFrom, canonicalize, hu, hcls, hH]

/-- A character that lower-cases to an ASCII character other than `k` is that character
or its capital letter. -/
theorem lowerChar_toLower (c x : Char) (h : lowerChar c = x) (hx : x ≠ 'k') :
    c.toLower = x := by
  unfold lowerChar at h
  split at h
  · exact absurd h.symm hx
  · exact h

theorem block_isAscii (t : String) (ht : t ∈ Category.names .block) : isAscii t = true := by
  revert t
  decide

/-- Every node name that `toLowerCase` turns into a block action name is matched by
`effectNodeReg`. -/
theorem effectNodeReg_block (host : Host) (name t : String) (ht : t ∈ Category.names .block)
    (h : host.toLowerCase name = t) : effectNodeReg.test name = true := by
  have hd : name.data.map lowerChar = t.data :=
    (host.toLowerCase_ascii name t (block_isAscii t ht)).1 h
  unfold RegExp.test
  simp only [Category.names, List.mem_cons, List.mem_singleton, List.not_mem_nil, or_false] at ht
  rcases ht with rfl | rfl | rfl | rfl | rfl | rfl | rfl | rfl | rfl
  case inl =>
    obtain ⟨c, rest, hcr, hc, -⟩ := List.map_eq_cons_iff.1 hd
    rw [hcr]
    exact effectNodeReg_first c rest (Or.inl (lowerChar_toLower c _ hc (by decide)))
  case inr.inr.inr.inr.inr.inr.inr.inl =>
    obtain ⟨c, rest, hcr, hc, -⟩ := List.map_eq_cons_iff.1 hd
    rw [hcr]
    exact effectNodeReg_first c rest (Or.inr (lowerChar_toLower c _ hc (by decide)))
  case inr.inr.inr.inr.inr.inr.inr.inr =>
    obtain ⟨c, rest, hcr, hc, -⟩ := List.map_eq_cons_iff.1 hd
    rw [hcr]
    exact effectNodeReg_first c rest (Or.inl (lowerChar_toLower c _ hc (by decide)))
  all_goals
    obtain ⟨c, rest, hcr, hc, hrest⟩ := List.map_eq_cons_iff.1 hd
    obtain ⟨d, rest', hdr, hd', hnil⟩ := List.map_eq_cons_iff.1 hrest
    have : rest' = [] := by simpa using hnil
    subst this
    rw [hcr, hdr]
    exact effectNodeReg_heading c d (lowerChar_toLower c _ hc (by decide))
      (by rw [lowerChar_toLower d _ hd' (by decide)]; decide)

/-- The block action names are left as they are by `toLowerCase`. -/
theorem toLowerCase_block (host : Host) (t : String) (ht : t ∈ Category.names .block) :
    host.toLowerCase t = t := by
  refine (host.toLowerCase_ascii t t (block_isAscii t ht)).2 ?_
  revert t
  decide

/-- The names of the nodes that are not elements do not lower-case to a block action
name. -/
theorem toLowerCase_hash (host : Host) (s t : String) (ht : t ∈ Category.names .block)
    (hs : s = "#text" ∨ s = "#comment" ∨ s = "#document") : host.toLowerCase s ≠ t := by
  intro h
  have hd := (host.toLowerCase_ascii s t (block_isAscii t ht)).1 h
  simp only [Category.names, List.mem_cons, List.mem_singleton, List.not_mem_nil, or_false] at ht
  rcases hs with rfl | rfl | rfl <;>
    rcases ht with rfl | rfl | rfl | rfl | rfl | rfl | rfl | rfl | rfl <;>
      exact absurd hd (by decide)

theorem names_contains_iff (host : Host) (t : String) (ht : t ∈ Category.names .block)
    (l : List DomNode) :
    ((l.filter fun n => effectNodeReg.test n.nodeName).map fun n =>
      host.toLowerCase n.nodeName).contains t = hasTag host t l := by
  induction l with
  | nil => rfl
  | cons n l ih =>
    have hhead : (effectNodeReg.test n.nodeName = true ∧ host.toLowerCase n.nodeName = t) ↔
        isElementNamed host t n = true := by
      unfold isElementNamed DomNode.nodeName
      cases hk : n.kind with
      | element name href =>
        simp only [beq_iff_eq]
        exact ⟨fun h => h.2, fun h => ⟨effectNodeReg_block host name t ht h, h⟩⟩
      | text =>
        simp only [Bool.false_eq_true, iff_false, not_and]
        intro _ h
        exact toLowerCase_hash host _ t ht (Or.inl rfl) h
      | comment =>
        simp only [Bool.false_eq_true, iff_false, not_and]
        intro _ h
        exact toLowerCase_hash host _ t ht (Or.inr (Or.inl rfl)) h
      | document =>
        simp only [Bool.false_eq_true, iff_false, not_and]
        intro _ h
        exact toLowerCase_hash host _ t ht (Or.inr (Or.inr rfl)) h
    have htail : hasTag host t (n :: l) = (isElementNamed host t n || hasTag host t l) := rfl
    rw [htail, ← ih]
    by_cases htest : effectNodeReg.test n.nodeName = true
    · simp only [List.filter_cons, htest, if_true, List.map_cons, List.contains_cons]
      by_cases hname : host.toLowerCase n.nodeName = t
      · have := hhead.1 ⟨htest, hname⟩
        simp [this, hname]
      · have : isElementNamed host t n = false := by
          cases hh : isElementNamed host t n with
          | false => rfl
          | true => exact absurd (hhead.2 hh).2 hname
        have hne : (t == host.toLowerCase n.nodeName) = false := by
          simpa using fun h => hname h.symm
        simp [this, hne]
    · have : isElementNamed host t n = false := by
        cases hh : isElementNamed host t n with
        | false => rfl
        | true => exact absurd (hhead.2 hh).1 htest
      simp [List.filter_cons, htest, this]

/-- The list `effectNode(ctx, currentNode(ctx), true)` of `commandBlock` holds a block name
exactly when an element with that tag lies on the chain from the start container up to the
editor element. -/
theorem effectNodeNames_walkUp (host : Host) (t : String) (ht : t ∈ Category.names .block)
    (root : Nat) (start : NodeRef) (hin : inside root start = true) :
    ∃ names, effectNodeNames host root (walkUp root false start) = some names ∧
      names.contains t = hasTag host t (belowRoot root start) := by
  unfold walkUp
  by_cases hr : isRoot root start = true
  · cases start with
    | nil => simp [isRoot] at hr
    | cons n rest =>
      have hn : n.id = root := by simpa [isRoot] using hr
      refine ⟨[], ?_, ?_⟩
      · simp [hr, effectNodeNames, effectNode, effectLoop, hn]
      · simp [belowRoot, hn, hasTag]
  · have hr' : isRoot root start = false := by simpa using hr
    obtain ⟨hin', hne⟩ := toElement_inside root start hin hr'
    simp only [hr', Bool.false_eq_true, if_false]
    have hnode : effectNode root (toElement root start) =
        effectLoop root (toElement root start) := by
      cases h : toElement root start with
      | nil => exact absurd h hne
      | cons _ _ => rfl
    refine ⟨((belowRoot root (toElement root start)).filter fun n =>
      effectNodeReg.test n.nodeName).map fun n => host.toLowerCase n.nodeName, ?_, ?_⟩
    · simp only [effectNodeNames, hnode, effectLoop_inside root _ hin', Option.map_some']
    · rw [names_contains_iff host t ht, toElement_below host t root start hr']

/-- After `setRange()`, `currentNode` succeeds on the restored range, and both `ctx._range`
and the selection hold that range. -/
theorem currentNode_setRange (pen : Pen) (r : Range) (byRoot : Bool)
    (hr : restoredRange pen = some r) :
    ∃ pen₂, currentNode (setRange pen) byRoot =
        .ok (pen₂, walkUp pen.editor byRoot r.startContainer) ∧
      pen₂._range = some r ∧ getRange pen₂ = some r ∧ pen₂.dom.sel = .shared ∧
      pen₂.trace = pen.trace ∧ pen₂.editor = pen.editor := by
  unfold restoredRange at hr
  cases h : pen._range with
  | some r₀ =>
    rw [h] at hr
    have : r₀ = r := by simpa using hr
    subst this
    refine ⟨{ pen with dom := { pen.dom with sel := .shared } }, ?_, ?_, ?_, rfl, rfl, rfl⟩
    · simp [currentNode, setRange, h]
    · exact h
    · simp [getRange, h]
  | none =>
    rw [h] at hr
    cases hs : pen.dom.sel with
    | empty => rw [hs] at hr; simp at hr
    | shared => rw [hs] at hr; simp at hr
    | own r₀ =>
      rw [hs] at hr
      have : r₀.collapse false = r := by simpa using hr
      subst this
      refine ⟨{ pen with _range := some (r₀.collapse false),
                         dom := { pen.dom with sel := .shared } }, ?_, rfl, ?_, rfl, rfl, rfl⟩
      · simp [currentNode, setRange, h, hs, captureRange]
      · simp [getRange]

/-- C2 (amended): for a block action name `t`, when the range `execCommand` restores (the
captured range, or else the selection collapsed to its end) starts inside the editor,
`execCommand(t)` succeeds and calls the host primitive exactly once, with operation
`formatblock` and value `p` if an element whose node name is turned into `t` by
`toLowerCase()` lies on the chain from that start container up to (excluding) the editor
element, and value `t` otherwise. -/
theorem execCommand_block (host : Host) (pen : Pen) (t : String) (value : Option String)
    (r : Range) (ht : t ∈ Category.names .block) (hr : restoredRange pen = some r)
    (hin : inside pen.editor r.startContainer = true) :
    ∃ pen', execCommand host pen t value = .ok pen' ∧
      hostCalls pen'.trace = hostCalls pen.trace ++
        [("formatblock",
          some (if hasTag host t (belowRoot pen.editor r.startContainer) = true then "p"
            else t),
          some r)] := by
  obtain ⟨pen₂, hcur, -, hget, -, htrace, hed⟩ := currentNode_setRange pen r false hr
  obtain ⟨names, hnames, hcontains⟩ :=
    effectNodeNames_walkUp host t ht pen.editor r.startContainer hin
  have hbranch : execBranch t = .block := by
    have := (commandsReg_test_iff .block t).2 ht
    simp [execBranch, this]
  have hne : t ≠ "indent" := by
    intro h; subst h; revert ht; decide
  refine ⟨cleanContent host (commandOverall host pen₂ "formatblock"
    (some (if names.contains t = true then "p" else t))) (some { cleanAttrs := ["style"] }),
    ?_, ?_⟩
  · simp only [execCommand, toLowerCase_block host t ht, hbranch, commandBlock, hcur, hed,
      hnames, hne, if_false]
  · rw [cleanContent_hostCalls, commandOverall_hostCalls, htrace, hget, hcontains]

/-- C2 (amended), on the sample document: with the selection captured, `h1` on a selection
starting in the heading resets the block to `p`. -/
theorem execCommand_block_witness :
    ∃ pen', execCommand idleHost samplePenCaptured "h1" none = .ok pen' ∧
      hostCalls pen'.trace = [("formatblock", some "p", some sampleSpan)] :=
  execCommand_block idleHost samplePenCaptured "h1" none sampleSpan (by decide) (by decide)
    (by decide)

/-- C2 as stated fails: no range was captured, the selection starts inside an `h1` element
within the editor and ends in a paragraph; the claim predicts the value `p`, the code calls
`formatblock` with `h1`, because `setRange()` has collapsed the selection to its end. -/
theorem execCommand_block_counterexample :
    samplePenUncaptured._range = none ∧
    getRange samplePenUncaptured = some sampleSpan ∧
    inside samplePenUncaptured.editor sampleSpan.startContainer = true ∧
    hasTag idleHost "h1" (belowRoot samplePenUncaptured.editor sampleSpan.startContainer) =
      true ∧
    callsOf (execCommand idleHost samplePenUncaptured "h1" none) =
      some [("formatblock", some "h1")] := by
  decide

/-- The lower-casing of node names is that of `toLowerCase()`: inside an element named
`BLOC`, U+212A KELVIN SIGN, `QUOTE`, the list of `effectNode` holds `blockquote`, and
`execCommand('blockquote')` calls `formatblock` with `p`. -/
theorem execCommand_block_kelvin :
    effectNodeNames idleHost 1 (walkUp 1 false sampleKelvinCaret.startContainer) =
      some ["blockquote"] ∧
    callsOf (execCommand idleHost samplePenKelvin "blockquote" none) =
      some [("formatblock", some "p")] := by
  decide

/-! ## Change detection -/

theorem getContent_congr (host : Host) (pen pen' : Pen) (h : pen'.dom = pen.dom) :
    getContent host pen' = getContent host pen := by
  simp [getContent, isEmpty, h]

theorem checkContentChange_same (host : Host) (pen : Pen)
    (h : getContent host pen = pen._prevContent) : checkContentChange host pen = pen := by
  simp [checkContentChange, h]

theorem checkContentChange_diff (host : Host) (pen : Pen)
    (h : getContent host pen ≠ pen._prevContent) :
    checkContentChange host pen =
      { pen with
        _prevContent := getContent host pen
        trace := pen.trace ++ ((pen._events.lookup "change").getD []).map fun l =>
          Effect.listener l "change" [getContent host pen, pen._prevContent]
            (getContent host pen) } := by
  have h' : ¬ pen._prevContent = getContent host pen := fun e => h e.symm
  simp only [checkContentChange, h', if_false, triggerListener]
  cases pen._events.lookup "change" with
  | none => simp
  | some ls => simp

theorem lookup_assign (m : EventMap) (k : String) (v₀ v : List Nat)
    (h : m.lookup k = some v₀) : (m.assign k v).lookup k = some v := by
  have hany : m.any (fun kv => kv.1 == k) = true := by
    induction m with
    | nil => simp [List.lookup] at h
    | cons kv m ih =>
      obtain ⟨a, b⟩ := kv
      by_cases hk : k = a
      · simp [hk]
      · have hk' : (k == a) = false := by simpa using hk
        simp only [List.lookup, hk'] at h
        simp [ih h]
  simp only [EventMap.assign, hany, if_true]
  clear hany
  induction m with
  | nil => simp [List.lookup] at h
  | cons kv m ih =>
    obtain ⟨a, b⟩ := kv
    by_cases hk : k = a
    · subst hk
      rw [List.map_cons]
      simp only [beq_self_eq_true, if_true]
      simp [List.lookup]
    · have hk' : (k == a) = false := by simpa using hk
      have hk'' : (a == k) = false := by simpa using fun e => hk e.symm
      simp only [List.lookup, hk'] at h
      rw [List.map_cons]
      simp only [hk'', Bool.false_eq_true, if_false]
      simp only [List.lookup, hk']
      exact ih h

theorem on_change (pen : Pen) (l : Nat) :
    (pen.on "change" l)._events.lookup "change" =
      (pen._events.lookup "change").map fun ls => ls ++ [l] := by
  unfold Pen.on addListener
  cases h : pen._events.lookup "change" with
  | none => simp [h]
  | some ls => simp [lookup_assign _ _ _ _ h]

/-- C3: `checkContentChange` does nothing when the current content equals the stored
snapshot; when it differs, it stores the current content as the snapshot and then calls
every `change` listener, in the order of the list, with (current content, previous
snapshot), each listener seeing the updated snapshot; a second call right after the first
changes nothing and calls no listener; and `on('change', l)` puts `l` at the end of that
list, so the order of the calls is the order of registration. -/
theorem checkContentChange_spec (host : Host) (pen : Pen) :
    (getContent host pen = pen._prevContent → checkContentChange host pen = pen) ∧
    (getContent host pen ≠ pen._prevContent →
      checkContentChange host pen =
        { pen with
          _prevContent := getContent host pen
          trace := pen.trace ++ ((pen._events.lookup "change").getD []).map fun l =>
            Effect.listener l "change" [getContent host pen, pen._prevContent]
              (getContent host pen) }) ∧
    checkContentChange host (checkContentChange host pen) = checkContentChange host pen ∧
    (∀ l : Nat, (pen.on "change" l)._events.lookup "change" =
      (pen._events.lookup "change").map fun ls => ls ++ [l]) := by
  refine ⟨checkContentChange_same host pen, checkContentChange_diff host pen, ?_,
    on_change pen⟩
  by_cases h : getContent host pen = pen._prevContent
  · rw [checkContentChange_same host pen h, checkContentChange_same host pen h]
  · apply checkContentChange_same
    rw [checkContentChange_diff host pen h]
    exact getContent_congr host _ pen rfl

/-- C3 on a sample state: the snapshot is `old`, the content is `new`; the two listeners
are called in order with (`new`, `old`), and a second check adds nothing. -/
theorem checkContentChange_spec_witness :
    (checkContentChange idleHost samplePenStale)._prevContent = "new" ∧
    (checkContentChange idleHost samplePenStale).trace =
      [.listener 7 "change" ["new", "old"] "new", .listener 8 "change" ["new", "old"] "new"] ∧
    checkContentChange idleHost (checkContentChange idleHost samplePenStale) =
      checkContentChange idleHost samplePenStale :=
  have h := checkContentChange_spec idleHost samplePenStale
  have hne : getContent idleHost samplePenStale ≠ samplePenStale._prevContent := by decide
  ⟨by rw [h.2.1 hne]; decide, by rw [h.2.1 hne]; decide, h.2.2.1⟩

/-! ## Event registry -/

/-- Whatever the global object holds, `removeAllListeners(ctx)` leaves `ctx._events` as it
was: its first loop runs over `this._events`, not over `ctx._events`. -/
theorem removeAllListeners_events (thisEvents : Option EventMap) (pen : Pen) :
    (finalState (removeAllListeners thisEvents pen).2)._events = pen._events := by
  unfold removeAllListeners
  simp only
  split
  · rfl
  · split <;> rfl

/-- C4 fails on the code: after `on('change', 7)` and `on('keyup', 8)`, `removeAllListeners`
detaches the platform listener 8 and empties the bookkeeping arrays, but the `change` list
still holds listener 7, and a later trigger of `change` calls it. -/
theorem removeAllListeners_keeps_change_listeners :
    samplePenListening.dom.attached = [(1, "keyup", 8)] ∧
    samplePenListening._events = [("change", [7])] ∧
    (finalState (removeAllListeners none samplePenListening).2).dom.attached = [] ∧
    (finalState (removeAllListeners none samplePenListening).2)._eventsCache = some [] ∧
    (finalState (removeAllListeners none samplePenListening).2)._events = [("change", [7])] ∧
    (triggerListener (finalState (removeAllListeners none samplePenListening).2) "change"
      ["new", "old"]).trace = [.listener 7 "change" ["new", "old"] ""] := by
  decide

/-! ## Highlighting -/

/-- C5 fails on the code: `effectNodeReg` does not match `CODE`, so with the focus inside
`<p><code>…</code></p>` only `p` is marked active although the toolbar has a `code` icon
and the `switch` of `highlight` has a case for it; and the pattern has no anchors, so it
matches `PRE` (and `SPAN`), and a `pre` element marks the `pre` icon active. -/
theorem highlight_misses_code :
    samplePenInCode.list.contains "code" = true ∧
    effectNodeReg.test "CODE" = false ∧
    activeOf (highlight idleHost samplePenInCode) = ["p"] ∧
    effectNodeReg.test "PRE" = true ∧ effectNodeReg.test "SPAN" = true ∧
    activeOf (highlight idleHost samplePenInPre) = ["pre"] := by
  decide

/-! ## Toolbar: visibility and position -/

theorem activate_shown (list : List String) (m : Menu) (str : String) :
    (activate list m str).shown = m.shown := by
  unfold activate
  split <;> rfl

theorem highlightItem_shown (host : Host) (list : List String) (m m' : Menu) (item : DomNode)
    (h : highlightItem host list m item = .ok m') : m'.shown = m.shown := by
  unfold highlightItem at h
  simp only at h
  split at h
  · split at h
    · cases h
    · cases h
      rw [activate_shown]
  · cases h
    rw [activate_shown]

theorem highlightLoop_shown (host : Host) (list : List String) (items : List DomNode)
    (m : Menu) : (highlightLoop host list items m).1.shown = m.shown := by
  induction items generalizing m with
  | nil => rfl
  | cons item rest ih =>
    unfold highlightLoop
    cases h : highlightItem host list m item with
    | error e => rfl
    | ok m' =>
      simp only
      rw [ih, highlightItem_shown host list m m' item h]

theorem highlight_shown (host : Host) (pen : Pen) :
    (finalState (highlight host pen)).menu.shown = pen.menu.shown := by
  unfold highlight
  cases effectNode pen.editor pen.dom.focusNode with
  | none => rfl
  | some effects =>
    simp only
    have key := highlightLoop_shown host pen.list effects
      { pen.menu with active := [],
                      input := pen.menu.input.map fun _ => { shown := false, value := "" } }
    revert key
    cases highlightLoop host pen.list effects
      { pen.menu with active := [],
                      input := pen.menu.input.map fun _ => { shown := false, value := "" } } with
    | mk m e =>
      cases e with
      | none => intro key; exact key
      | some e => intro key; exact key

theorem selCollapsed_congr (pen pen' : Pen) (h₁ : pen'._range = pen._range)
    (h₂ : pen'.dom = pen.dom) : selCollapsed pen' = selCollapsed pen := by
  simp [selCollapsed, getRange, h₁, h₂]

theorem onTimer_collapsed (host : Host) (pen : Pen) (d : Nat) (hd : pen.menu.timer = some d)
    (hc : selCollapsed pen = true) :
    onTimer host pen = .ok { pen with menu := { pen.menu with timer := none, shown := false } } := by
  have hc' : selCollapsed { pen with menu := { pen.menu with timer := none } } = true := by
    exact (selCollapsed_congr _ pen rfl rfl).trans hc
  unfold onTimer
  rw [hd]
  simp only
  rw [hc']
  rfl

theorem onTimer_selected (host : Host) (pen : Pen) (d : Nat) (r : Range)
    (hd : pen.menu.timer = some d) (hc : selCollapsed pen = false) (hr : pen._range = some r) :
    (finalState (onTimer host pen)).menu.shown = true := by
  have hc' : selCollapsed { pen with menu := { pen.menu with timer := none } } = false := by
    exact (selCollapsed_congr _ pen rfl rfl).trans hc
  unfold onTimer
  rw [hd]
  simp only
  rw [hc']
  have hm : ∃ p, menu host { pen with menu := { pen.menu with timer := none } } = .ok p ∧
      p.menu.shown = true := by
    unfold menu
    simp only [hr]
    exact ⟨_, rfl, rfl⟩
  obtain ⟨p, hp, hshown⟩ := hm
  rw [hp]
  simp only [Bool.not_false, if_true]
  rw [highlight_shown, hshown]

/-- C6 (amended): a selection-change handler (mouseup or mouseleave after a mousedown, or a
keyup other than Backspace on an empty editor) captures the range, arms the debounce timer
and leaves the visibility of the toolbar as it was; the toolbar is hidden, like it is
shown, when the timer expires: hidden if the selection is collapsed at that moment, shown
if it is not (and a range was captured).  Only Backspace on an empty editor hides the
toolbar within the handler. -/
theorem toolbar_visibility (host : Host) (pen : Pen) :
    (∀ ev : Event,
      ((pen.menu.selecting = true ∧ (ev = .mouseup ∨ ev = .mouseleave)) ∨
        (∃ w, ev = .keyup w ∧ ¬ (w = 8 ∧ isEmpty host pen = true))) →
      ∃ pen', handle host pen ev = .ok pen' ∧ pen'.menu.shown = pen.menu.shown ∧
        pen'.menu.timer.isSome = true ∧ pen'._range = getRange pen) ∧
    (∀ ev : Event, (ev = .mousedown ∨ (pen.menu.selecting = false ∧
        (ev = .mouseup ∨ ev = .mouseleave))) →
      ∃ pen', handle host pen ev = .ok pen' ∧ pen'.menu.shown = pen.menu.shown ∧
        pen'.menu.timer = pen.menu.timer) ∧
    (pen.menu.timer.isSome = true → selCollapsed pen = true →
      ∃ pen', handle host pen .timer = .ok pen' ∧ pen'.menu.shown = false) ∧
    (pen.menu.timer.isSome = true → selCollapsed pen = false → pen._range.isSome = true →
      (finalState (handle host pen .timer)).menu.shown = true) ∧
    (isEmpty host pen = true →
      ∃ pen', handle host pen (.keyup 8) = .ok pen' ∧ pen'.menu.shown = false) := by
  have hcap : (captureRange pen)._range = getRange pen ∧
      (captureRange pen).menu = pen.menu := by
    unfold captureRange getRange
    cases pen.dom.sel <;> exact ⟨rfl, rfl⟩
  refine ⟨?_, ?_, ?_, ?_, ?_⟩
  · rintro ev (⟨hsel, rfl | rfl⟩ | ⟨w, rfl, hw⟩)
    · exact ⟨_, rfl, by simp [hsel, toggle, toggleMenu, hcap.2], by
        simp [hsel, toggle, toggleMenu], by simp [hsel, toggle, toggleMenu, hcap.1]⟩
    · exact ⟨_, rfl, by simp [hsel, toggle, toggleMenu, hcap.2], by
        simp [hsel, toggle, toggleMenu], by simp [hsel, toggle, toggleMenu, hcap.1]⟩
    · refine ⟨toggle pen 400, ?_, ?_, ?_, ?_⟩
      · simp only [handle, hw, if_false]
      · simp [toggle, toggleMenu, hcap.2]
      · simp [toggle, toggleMenu]
      · simp [toggle, toggleMenu, hcap.1]
  · rintro ev (rfl | ⟨hsel, rfl | rfl⟩)
    · exact ⟨_, rfl, rfl, rfl⟩
    · exact ⟨_, rfl, by simp [hsel], by simp [hsel]⟩
    · exact ⟨_, rfl, by simp [hsel], by simp [hsel]⟩
  · intro ht hc
    obtain ⟨d, hd⟩ := Option.isSome_iff_exists.1 ht
    exact ⟨_, onTimer_collapsed host pen d hd hc, rfl⟩
  · intro ht hc hr
    obtain ⟨d, hd⟩ := Option.isSome_iff_exists.1 ht
    obtain ⟨r, hr'⟩ := Option.isSome_iff_exists.1 hr
    exact onTimer_selected host pen d r hd hc hr'
  · intro he
    have hs : ∀ p : Pen, (setRange p).menu = p.menu := by
      intro p
      unfold setRange
      split
      · rfl
      · split <;> rfl
    have hk : handle host pen (.keyup 8) = .ok (setRange
        { pen with dom := { pen.dom with content := host.parseHTML "<p><br></p>" },
                   menu := { pen.menu with shown := false } }) := by
      simp only [handle, he, and_self, if_true]
    exact ⟨_, hk, by rw [hs]⟩

/-- C6 (amended), on the sample run: once the click on a caret has been handled the timer
is pending and the selection is collapsed, and the expiry of the timer hides the toolbar. -/
theorem toolbar_visibility_witness :
    ∃ pen', handle idleHost (run idleHost samplePenClicked [.mousedown, .mouseup]) .timer =
      .ok pen' ∧ pen'.menu.shown = false :=
  (toolbar_visibility idleHost (run idleHost samplePenClicked [.mousedown, .mouseup])).2.2.1
    (by decide) (by decide)

/-- C6 as stated fails: the toolbar is displayed after a mouse selection; the user clicks,
which collapses the selection; when the handlers of mousedown and mouseup have run the
toolbar is still displayed although the selection is collapsed, and a timer is pending;
the toolbar is hidden only when that timer expires. -/
theorem toolbar_hide_is_debounced :
    samplePenDisplayed.menu.shown = true ∧
    selCollapsed samplePenClicked = true ∧
    selCollapsed (run idleHost samplePenClicked [.mousedown, .mouseup]) = true ∧
    (run idleHost samplePenClicked [.mousedown, .mouseup]).menu.shown = true ∧
    (run idleHost samplePenClicked [.mousedown, .mouseup]).menu.timer = some 1 ∧
    (run idleHost samplePenClicked [.mousedown, .mouseup, .timer]).menu.shown = false := by
  decide

/-- C7: with a captured range, `menu()` displays the toolbar and, in exact rational
arithmetic with padding 10, for the candidate left `c = left + width/2 - W/2` and the
candidate top `t = top - 10 - H`: if `c < 0` the final left is 0 and the pointer rule at
index 0 carries the unclamped centre `left + width/2`, otherwise the final left is `c` and
the rule is 50%; if `t < 0` the final top is `top + height + 10` and the class
`pen-menu-below` is set, otherwise the final top is `t` and the class is cleared. -/
theorem menu_position (host : Host) (pen : Pen) (range : Range) (h : pen._range = some range) :
    ∃ pen', menu host pen = .ok pen' ∧ pen'.menu.shown = true ∧
      ((host.boundingRect range).left + (host.boundingRect range).width / 2 -
          host.clientWidth / 2 < 0 →
        pen'.menu.left = 0 ∧
        (pen'.menu.stylesheet.bind fun rules => rules.head?) =
          some (.leftPx ((host.boundingRect range).left + (host.boundingRect range).width / 2))) ∧
      (¬ (host.boundingRect range).left + (host.boundingRect range).width / 2 -
          host.clientWidth / 2 < 0 →
        pen'.menu.left = (host.boundingRect range).left + (host.boundingRect range).width / 2 -
          host.clientWidth / 2 ∧
        (pen'.menu.stylesheet.bind fun rules => rules.head?) = some .leftHalf) ∧
      ((host.boundingRect range).top - 10 - host.clientHeight < 0 →
        pen'.menu.top = (host.boundingRect range).top + (host.boundingRect range).height + 10 ∧
        pen'.menu.below = true) ∧
      (¬ (host.boundingRect range).top - 10 - host.clientHeight < 0 →
        pen'.menu.top = (host.boundingRect range).top - 10 - host.clientHeight ∧
        pen'.menu.below = false) := by
  unfold menu
  simp only [h]
  refine ⟨_, rfl, rfl, ?_, ?_, ?_, ?_⟩
  · intro hc
    simp [hc]
  · intro hc
    simp [hc]
  · intro ht
    simp [ht]
  · intro ht
    simp [ht]

/-- C7 on the sample host (box top 5, left 2, width 6, height 4; toolbar 20 by 8): the
candidate left is -5 and the candidate top is -13, so the toolbar is placed at left 0,
top 19, below the selection, and the pointer rule carries the centre 5. -/
theorem menu_position_witness :
    ∃ pen', menu idleHost samplePenCaptured = .ok pen' ∧ pen'.menu.left = 0 ∧
      pen'.menu.top = 19 ∧ pen'.menu.below = true ∧
      (pen'.menu.stylesheet.bind fun rules => rules.head?) = some (.leftPx 5) := by
  obtain ⟨pen', h, -, hl, -, ht, -⟩ := menu_position idleHost samplePenCaptured sampleSpan rfl
  have hc : (idleHost.boundingRect sampleSpan).left + (idleHost.boundingRect sampleSpan).width / 2 -
      idleHost.clientWidth / 2 < 0 := by
    simp only [idleHost]; norm_num
  have htop : (idleHost.boundingRect sampleSpan).top - 10 - idleHost.clientHeight < 0 := by
    simp only [idleHost]; norm_num
  refine ⟨pen', h, (hl hc).1, ?_, (ht htop).2, ?_⟩
  · rw [(ht htop).1]; simp only [idleHost]; norm_num
  · rw [(hl hc).2]; simp only [idleHost]; norm_num

/-! ## `execCommand` without a selection -/

theorem currentNode_no_range (pen : Pen) (byRoot : Bool) (hr : pen._range = none)
    (hs : pen.dom.sel = .empty) :
    currentNode pen byRoot = .error (.typeError "startContainer", pen) := by
  have hcap : captureRange pen = pen := by
    unfold captureRange
    rw [hs]
    cases pen
    simp_all
  simp [currentNode, hr, hcap]

/-- When no range was captured and the selection is empty, `execCommand` raises a
`TypeError` for every block and every insert action, before any host call. -/
theorem execCommand_no_range (host : Host) (pen : Pen) (name : String) (value : Option String)
    (hb : execBranch (host.toLowerCase name) = .block ∨
      execBranch (host.toLowerCase name) = .insert)
    (hr : pen._range = none) (hs : pen.dom.sel = .empty) :
    execCommand host pen name value = .error (.typeError "startContainer", pen) := by
  have hset : setRange pen = pen := by
    simp [setRange, hr, hs]
  rcases hb with hb | hb
  · simp [execCommand, hb, hset, commandBlock, currentNode_no_range pen false hr hs]
  · simp [execCommand, hb, hset, commandInsert, currentNode_no_range pen false hr hs]

/-- C8 fails on the code: on a controller that has captured no range, with an empty
selection, `execCommand('p')` and `execCommand('insert')` raise a `TypeError` (reading
`startContainer` of `null` in `currentNode`), while an inline, a wrap and an unrecognised
name return. -/
theorem execCommand_raises_without_selection :
    getRange ({ editor := 1 } : Pen) = none ∧ ({ editor := 1 } : Pen)._range = none ∧
    errorOf (execCommand idleHost { editor := 1 } "p" none) =
      some (.typeError "startContainer") ∧
    errorOf (execCommand idleHost { editor := 1 } "insert" none) =
      some (.typeError "startContainer") ∧
    errorOf (execCommand idleHost { editor := 1 } "bold" none) = none ∧
    errorOf (execCommand idleHost { editor := 1 } "code" none) = none ∧
    errorOf (execCommand idleHost { editor := 1 } "nosuchcommand" none) = none := by
  refine ⟨rfl, rfl, ?_, ?_, ?_, ?_, ?_⟩
  · rw [execCommand_no_range idleHost _ "p" none (Or.inl (by decide)) rfl rfl]; rfl
  · rw [execCommand_no_range idleHost _ "insert" none (Or.inr (by decide)) rfl rfl]; rfl
  · decide
  · decide
  · decide

/-! ## `execCommand` on an unrecognised name -/

theorem filter_attr_id (attr : String) (as : List (String × String))
    (h : as.any (fun kv => kv.1 == attr) = false) : as.filter (fun kv => kv.1 != attr) = as := by
  induction as with
  | nil => rfl
  | cons kv as ih =>
    simp only [List.any_cons, Bool.or_eq_false_iff] at h
    have hne : (kv.1 != attr) = true := by simp [bne, h.1]
    rw [List.filter_cons, hne, if_pos rfl, ih h.2]

mutual
theorem Html.removeAttribute_id (attr : String) :
    ∀ h : Html, h.hasAttribute attr = false → h.removeAttribute attr = h
  | .text _, _ => rfl
  | .elem t as cs, hh => by
    simp only [Html.hasAttribute, Bool.or_eq_false_iff] at hh
    simp only [Html.removeAttribute, filter_attr_id (asciiLowerCase attr) as hh.1,
      removeAttributeAll_id attr cs hh.2]
theorem removeAttributeAll_id (attr : String) :
    ∀ l : List Html, hasAttributeAny attr l = false → removeAttributeAll attr l = l
  | [], _ => rfl
  | h :: t, hh => by
    simp only [hasAttributeAny, Bool.or_eq_false_iff] at hh
    simp only [removeAttributeAll, Html.removeAttribute_id attr h hh.1,
      removeAttributeAll_id attr t hh.2]
end

theorem isEmpty_congr (host : Host) (pen pen' : Pen) (h : pen'.dom.content = pen.dom.content) :
    isEmpty host pen' = isEmpty host pen := by
  simp [isEmpty, h]

theorem getContent_congr_content (host : Host) (pen pen' : Pen)
    (h : pen'.dom.content = pen.dom.content) (hp : pen'.dom.penPlaceholder = pen.dom.penPlaceholder) :
    getContent host pen' = getContent host pen := by
  simp [getContent, isEmpty, h, hp]

theorem setRange_frame (pen : Pen) :
    (setRange pen).dom.content = pen.dom.content ∧
    (setRange pen).dom.penPlaceholder = pen.dom.penPlaceholder ∧
    (setRange pen)._prevContent = pen._prevContent ∧
    (setRange pen)._placeholder = pen._placeholder ∧
    (setRange pen).trace = pen.trace := by
  unfold setRange
  split
  · exact ⟨rfl, rfl, rfl, rfl, rfl⟩
  · split <;> exact ⟨rfl, rfl, rfl, rfl, rfl⟩

theorem listenerCalls_append (a b : List Effect) :
    listenerCalls (a ++ b) = listenerCalls a ++ listenerCalls b := by
  simp [listenerCalls]

/-- A sanitation pass restricted to `style` on a surface that has no `style` attribute, no
placeholder to show and an up-to-date snapshot changes neither content, snapshot nor
trace. -/
theorem cleanContent_style_frame (host : Host) (pen : Pen)
    (hstyle : hasAttributeAny "style" pen.dom.content = false)
    (hflag : pen.dom.penPlaceholder = false)
    (hph : truthy pen._placeholder = false ∨ isEmpty host pen = false)
    (hsnap : getContent host pen = pen._prevContent) :
    (cleanContent host pen (some { cleanAttrs := ["style"] })).dom.content = pen.dom.content ∧
    (cleanContent host pen (some { cleanAttrs := ["style"] }))._prevContent = pen._prevContent ∧
    (cleanContent host pen (some { cleanAttrs := ["style"] })).trace = pen.trace := by
  have hclean : ({ pen with dom := { pen.dom with
      content := removeAttributeAll "style" pen.dom.content } } : Pen) = pen := by
    rw [removeAttributeAll_id "style" _ hstyle]
  have hcond : (truthy pen._placeholder && (pen.dom.penPlaceholder || isEmpty host pen)) = false := by
    rcases hph with h | h
    · simp [h]
    · simp [h, hflag]
  have hplace : placeholder host pen = pen := by
    unfold placeholder
    rw [hcond]
    simp only [Bool.false_eq_true, if_false]
    have : ({ pen.dom with penPlaceholder := false } : Dom) = pen.dom := by
      rw [← hflag]
    rw [this]
  have hcc : cleanContent host pen (some { cleanAttrs := ["style"] }) = pen := by
    unfold cleanContent
    simp only [Option.getD_some, List.foldl_cons, List.foldl_nil]
    rw [hclean, hplace, checkContentChange_same host pen hsnap]
  rw [hcc]
  exact ⟨rfl, rfl, rfl⟩

/-- C9 (amended): for a name that, lower-cased by `toLowerCase()`, matches none of the five
patterns, `execCommand` returns without calling the host primitive; what it does is
restore the selection, write the diagnostic, and run the sanitation pass every dispatch other than
`indent` runs (remove the `style` attributes inside the editor, refresh the placeholder,
detect a change).  When no element has a `style` attribute, no placeholder is to be shown
and the snapshot is up to date, the content, the snapshot and the calls of `change`
listeners are unchanged. -/
theorem execCommand_unrecognized (host : Host) (pen : Pen) (name : String)
    (value : Option String)
    (h : ∀ c : Category, (commandsReg c).test (host.toLowerCase name) = false) :
    ∃ pen', execCommand host pen name value = .ok pen' ∧
      hostCalls pen'.trace = hostCalls pen.trace ∧
      pen' = cleanContent host
        (log (setRange pen) ("can not find command function for name: " ++
          host.toLowerCase name ++
          (if truthy value then ", value: " ++ value.getD "" else "")) true)
        (some { cleanAttrs := ["style"] }) ∧
      (hasAttributeAny "style" pen.dom.content = false → pen.dom.penPlaceholder = false →
        (truthy pen._placeholder = false ∨ isEmpty host pen = false) →
        getContent host pen = pen._prevContent →
        pen'.dom.content = pen.dom.content ∧ pen'._prevContent = pen._prevContent ∧
          listenerCalls pen'.trace = listenerCalls pen.trace) := by
  have hbranch : execBranch (host.toLowerCase name) = .unknown := by
    simp [execBranch, h]
  have hne : host.toLowerCase name ≠ "indent" := by
    intro he
    have := h .inline
    rw [he] at this
    revert this
    decide
  refine ⟨_, by simp only [execCommand, hbranch, hne, if_false], ?_, rfl, ?_⟩
  · rw [cleanContent_hostCalls, log_hostCalls, (setRange_frame pen).2.2.2.2]
  · intro hstyle hflag hph hsnap
    obtain ⟨hc, hp, hprev, hpl, htr⟩ := setRange_frame pen
    have hframe := cleanContent_style_frame host
      (log (setRange pen) ("can not find command function for name: " ++
          host.toLowerCase name ++
          (if truthy value then ", value: " ++ value.getD "" else "")) true)
      (by simpa [log, hc] using hstyle) (by simpa [log, hp] using hflag)
      (by
        rcases hph with h1 | h1
        · left; simpa [log, hpl] using h1
        · right; rw [isEmpty_congr host pen _ (by simpa [log] using hc)]; exact h1)
      (by
        rw [getContent_congr_content host pen _ (by simpa [log] using hc)
          (by simpa [log] using hp)]
        simpa [log, hprev] using hsnap)
    refine ⟨?_, ?_, ?_⟩
    · rw [hframe.1]; simpa [log] using hc
    · rw [hframe.2.1]; simpa [log] using hprev
    · rw [hframe.2.2]
      simp [log, htr, listenerCalls_append, listenerCalls]

/-- C9 (amended), on a sample state without `style` attribute and with an up-to-date
snapshot: the unrecognised name `nosuchcommand` leaves content, snapshot and listener
calls as they were and calls no host primitive. -/
theorem execCommand_unrecognized_witness :
    ∃ pen', execCommand idleHost samplePenPlain "nosuchcommand" none = .ok pen' ∧
      hostCalls pen'.trace = [] ∧
      pen'.dom.content = samplePenPlain.dom.content ∧
      pen'._prevContent = samplePenPlain._prevContent ∧
      listenerCalls pen'.trace = [] := by
  obtain ⟨pen', h1, h2, -, h4⟩ := execCommand_unrecognized idleHost samplePenPlain
    "nosuchcommand" none (by intro c; cases c <;> decide)
  obtain ⟨h5, h6, h7⟩ := h4 (by decide) (by decide) (Or.inl (by decide)) (by decide)
  exact ⟨pen', h1, h2, h5, h6, h7⟩

/-- C9 as stated fails: the paragraph carries a `style` attribute and the snapshot is in
step with the content; the unrecognised name `nosuchcommand` makes `execCommand` strip the
attribute, update the snapshot and call the `change` listener. -/
theorem execCommand_unrecognized_sanitizes :
    (∀ c : Category, (commandsReg c).test (idleHost.toLowerCase "nosuchcommand") = false) ∧
    getContent idleHost samplePenStyled = samplePenStyled._prevContent ∧
    hasAttributeAny "style" samplePenStyled.dom.content = true ∧
    hasAttributeAny "style"
      (finalState (execCommand idleHost samplePenStyled "nosuchcommand" none)).dom.content = false ∧
    (finalState (execCommand idleHost samplePenStyled "nosuchcommand" none))._prevContent ≠
      samplePenStyled._prevContent ∧
    listenerCalls (finalState (execCommand idleHost samplePenStyled "nosuchcommand" none)).trace =
      [.listener 7 "change" [serialize [.elem "p" [] [.text "x"]],
        serialize [.elem "p" [("style", "color:red")] [.text "x"]]]
        (serialize [.elem "p" [] [.text "x"]])] := by
  refine ⟨by intro c; cases c <;> decide, ?_, ?_, ?_, ?_, ?_⟩ <;> decide

/-- The lower-casing of action names is that of `toLowerCase()`: the name `unlin` followed
by U+212A KELVIN SIGN is recognised as `unlink` and passed to the host primitive. -/
theorem execCommand_kelvin_unlink :
    execBranch (idleHost.toLowerCase sampleKelvinName) = .overall ∧
    callsOf (execCommand idleHost samplePenPlain sampleKelvinName none) =
      some [("unlink", none)] := by
  decide

/-! ## Insert actions -/

theorem toElement_split (root : Nat) (node : NodeRef)
    (hin : inside root node = true) (h : isRoot root node = false) :
    ∃ skipped n parent, node = skipped ++ n :: parent ∧ toElement root node = n :: parent ∧
      (∀ m ∈ skipped, m.nodeType ≠ 1) ∧ (n.nodeType = 1 ∨ isRoot root parent = true) ∧
      inside root parent = true := by
  induction node with
  | nil => simp [inside] at hin
  | cons n₀ rest ih =>
    have hn : ¬ n₀.id = root := by
      simpa [isRoot] using h
    have hrest : inside root rest = true := by
      simpa [inside, hn] using hin
    unfold toElement
    split
    · rename_i hc
      have hr : isRoot root rest = false := by
        simpa [parentIsNotRoot, parentNode] using hc.2
      obtain ⟨skipped, n, parent, hsplit, hto, hsk, hn', hpar⟩ := ih hrest hr
      refine ⟨n₀ :: skipped, n, parent, by rw [hsplit]; rfl, hto, ?_, hn', hpar⟩
      intro m hm
      rcases List.mem_cons.1 hm with rfl | hm
      · exact hc.1
      · exact hsk m hm
    · rename_i hc
      refine ⟨[], n₀, rest, rfl, rfl, by simp, ?_, hrest⟩
      by_cases ht : n₀.nodeType = 1
      · exact Or.inl ht
      · right
        by_contra hroot
        exact hc ⟨ht, by simpa [parentIsNotRoot, parentNode] using hroot⟩

/-- The insert action names are left as they are by `toLowerCase`. -/
theorem toLowerCase_insert (host : Host) (t : String) (ht : t ∈ Category.names .insert) :
    host.toLowerCase t = t := by
  have hascii : isAscii t = true := by
    revert t
    decide
  refine (host.toLowerCase_ascii t t hascii).2 ?_
  revert t
  decide

/-- C10 (amended): for an insert action, when the range `execCommand` restores starts
strictly inside the editor, `execCommand` succeeds and calls the host primitive exactly
once, with the action name and no value, after collapsing the range to the point
immediately after the node `currentNode(ctx)` returns without `byRoot`: the nearest node,
from the start container upwards, that is an element or a direct child of the editor; the
nodes passed over are not elements, and the point lies inside the editor. -/
theorem execCommand_insert (host : Host) (pen : Pen) (name : String) (value : Option String)
    (r : Range) (hn : name ∈ Category.names .insert) (hr : restoredRange pen = some r)
    (hin : strictlyInside pen.editor r.startContainer = true) :
    ∃ pen' skipped n parent,
      r.startContainer = skipped ++ n :: parent ∧
      (∀ m ∈ skipped, m.nodeType ≠ 1) ∧
      (n.nodeType = 1 ∨ isRoot pen.editor parent = true) ∧
      inside pen.editor parent = true ∧
      walkUp pen.editor false r.startContainer = n :: parent ∧
      execCommand host pen name value = .ok pen' ∧
      hostCalls pen'.trace = hostCalls pen.trace ++
        [(name, none, some (pointAfter n parent))] := by
  have hin' : inside pen.editor r.startContainer = true ∧
      isRoot pen.editor r.startContainer = false := by
    simpa [strictlyInside] using hin
  obtain ⟨skipped, n, parent, hsplit, hto, hsk, hkind, hpar⟩ :=
    toElement_split pen.editor r.startContainer hin'.1 hin'.2
  have hwalk : walkUp pen.editor false r.startContainer = n :: parent := by
    simp [walkUp, hin'.2, hto]
  obtain ⟨pen₂, hcur, hrange, -, hsel, htrace, hed⟩ := currentNode_setRange pen r false hr
  have hbranch : execBranch name = .insert := by
    have := (commandsReg_test_iff .insert name).2 hn
    have hb : (commandsReg .block).test name = false := by
      cases hb : (commandsReg .block).test name with
      | false => rfl
      | true =>
        exact absurd (names_unique _ _ name ((commandsReg_test_iff _ _).1 hb) hn) (by decide)
    have hi : (commandsReg .inline).test name = false := by
      cases hb : (commandsReg .inline).test name with
      | false => rfl
      | true =>
        exact absurd (names_unique _ _ name ((commandsReg_test_iff _ _).1 hb) hn) (by decide)
    have hs : (commandsReg .source).test name = false := by
      cases hb : (commandsReg .source).test name with
      | false => rfl
      | true =>
        exact absurd (names_unique _ _ name ((commandsReg_test_iff _ _).1 hb) hn) (by decide)
    simp [execBranch, this, hb, hi, hs]
  have hne : name ≠ "indent" := by
    intro h; subst h; revert hn; decide
  obtain ⟨p, rest', hp⟩ : ∃ p rest', parent = p :: rest' := by
    cases parent with
    | nil => simp [inside] at hpar
    | cons p rest' => exact ⟨p, rest', rfl⟩
  subst hp
  have hins : commandInsert host (setRange pen) name =
      .ok (commandOverall host { pen₂ with _range := some (pointAfter n (p :: rest')) }
        name none) := by
    simp only [commandInsert, hcur, hwalk, hrange, Range.selectNode, Range.collapse]
    rfl
  refine ⟨cleanContent host
    (commandOverall host { pen₂ with _range := some (pointAfter n (p :: rest')) } name none)
    (some { cleanAttrs := ["style"] }), skipped, n, p :: rest', hsplit, hsk, hkind, hpar, hwalk,
    ?_, ?_⟩
  · simp only [execCommand, toLowerCase_insert host name hn, hbranch, hins, hne, if_false]
  · rw [cleanContent_hostCalls, commandOverall_hostCalls]
    simp [getRange, hsel, htrace]

/-- C10 (amended), on the sample document `<p><b>text</b></p>` with the caret in the text:
the host primitive is called once with `insert`, the range collapsed right after the `b`
element, inside the paragraph. -/
theorem execCommand_insert_witness :
    ∃ pen', execCommand idleHost samplePenCaret "insert" none = .ok pen' ∧
      hostCalls pen'.trace =
        [("insert", none, some (pointAfter ⟨5, .element "B" none, 0⟩ sampleParagraph))] := by
  obtain ⟨pen', skipped, n, parent, -, -, -, -, hwalk, hexec, hcalls⟩ :=
    execCommand_insert idleHost samplePenCaret "insert" none sampleCaret (by decide) rfl
      (by decide)
  have hw : walkUp samplePenCaret.editor false sampleCaret.startContainer =
      ⟨5, .element "B" none, 0⟩ :: sampleParagraph := by decide
  rw [hw] at hwalk
  obtain ⟨rfl, rfl⟩ := List.cons.inj hwalk
  exact ⟨pen', hexec, hcalls⟩

/-- C10 as stated fails: in `<p><b>text</b></p>` with the caret in the text, the
block-level ancestor of the selection start is the paragraph, a child of the editor, and
the claim puts the insertion point after it, in the editor; the code collapses the range
right after the `b` element, inside the paragraph. -/
theorem execCommand_insert_stays_in_block :
    strictlyInside samplePenCaret.editor sampleCaret.startContainer = true ∧
    walkUp samplePenCaret.editor true sampleCaret.startContainer = sampleParagraph ∧
    parentNode sampleParagraph = sampleEditor ∧
    (hostCalls (finalState (execCommand idleHost samplePenCaret "insert" none)).trace).map
        (fun c => c.2.2.map fun range => (range.startContainer, range.startOffset)) =
      [some (sampleParagraph, 1)] ∧
    sampleParagraph ≠ sampleEditor := by
  decide

/-! ## Link values: the replacements of `createlink` -/

theorem orElse_none_right {α : Type} (a : Option α) : (a.orElse fun _ => none) = a := by
  cases a <;> rfl

theorem isSome_orElse_left {α : Type} (a : Option α) (f : Unit → Option α)
    (h : a.isSome = true) : (a.orElse f).isSome = true := by
  cases a with
  | none => simp at h
  | some x => rfl

theorem isSome_orElse_right {α : Type} (a : Option α) (f : Unit → Option α)
    (h : (f ()).isSome = true) : (a.orElse f).isSome = true := by
  cases a with
  | none => exact h
  | some x => rfl

theorem orElse_eq_some {α : Type} (a : Option α) (f : Unit → Option α) (x : α)
    (h : a.orElse f = some x) : a = some x ∨ f () = some x := by
  cases a with
  | none => exact Or.inr h
  | some y => exact Or.inl h

/-- A greedy star followed by something that always succeeds takes the longest run. -/
theorem starFrom_greedy_total {α : Type} (p : Char → Bool) (k : Nat → List Char → Option α)
    (hk : ∀ j rest, (k j rest).isSome = true) (i : Nat) (s : List Char) :
    starFrom p true i s k = k (i + (s.takeWhile p).length) (s.dropWhile p) := by
  induction s generalizing i with
  | nil => rfl
  | cons c s ih =>
    by_cases hc : p c = true
    · have hsome := hk (i + 1 + (s.takeWhile p).length) (s.dropWhile p)
      obtain ⟨x, hx⟩ := Option.isSome_iff_exists.1 hsome
      simp only [starFrom, if_true, hc, ih, hx, List.takeWhile_cons, List.dropWhile_cons,
        List.length_cons]
      rw [← hx]
      have : i + ((s.takeWhile p).length + 1) = i + 1 + (s.takeWhile p).length := by omega
      rw [this]
      simp [hx]
    · simp [starFrom, hc, List.takeWhile_cons, List.dropWhile_cons]

/-- A greedy star followed by something that needs the end of the input succeeds exactly
when the whole rest is in the set. -/
theorem starFrom_greedy_end {α : Type} (p : Char → Bool) (k : Nat → List Char → Option α)
    (hk : ∀ j c t, k j (c :: t) = none) (i : Nat) (s : List Char) :
    starFrom p true i s k = if s.all p = true then k (i + s.length) [] else none := by
  induction s generalizing i with
  | nil => simp [starFrom]
  | cons c s ih =>
    by_cases hc : p c = true
    · simp only [starFrom, if_true, hc, ih, hk, List.all_cons, Bool.true_and, List.length_cons]
      have : i + (s.length + 1) = i + 1 + s.length := by omega
      rw [this, orElse_none_right]
    · simp [starFrom, hc, hk]

/-- A star succeeds as soon as some run of characters of the set is followed by a success
of the continuation. -/
theorem starFrom_isSome {α : Type} (p : Char → Bool) (greedy : Bool)
    (k : Nat → List Char → Option α) (u v : List Char) (i : Nat)
    (hu : ∀ c ∈ u, p c = true) (hk : (k (i + u.length) v).isSome = true) :
    (starFrom p greedy i (u ++ v) k).isSome = true := by
  induction u generalizing i with
  | nil =>
    simp only [List.length_nil, Nat.add_zero] at hk
    cases v with
    | nil => exact hk
    | cons c s =>
      simp only [List.nil_append, starFrom]
      cases greedy
      · exact isSome_orElse_left _ _ hk
      · exact isSome_orElse_right _ _ hk
  | cons c u ih =>
    have hc : p c = true := hu c (List.mem_cons_self _ _)
    have hrec : (starFrom p greedy (i + 1) (u ++ v) k).isSome = true := by
      apply ih
      · intro d hd; exact hu d (List.mem_cons_of_mem _ hd)
      · have : i + 1 + u.length = i + (c :: u).length := by simp; omega
        rw [this]; exact hk
    simp only [List.cons_append, starFrom, hc, if_true]
    cases greedy
    · exact isSome_orElse_right _ _ hrec
    · exact isSome_orElse_left _ _ hrec

theorem starFrom_some {α : Type} (p : Char → Bool) (greedy : Bool)
    (k : Nat → List Char → Option α) (i : Nat) (s : List Char) (x : α)
    (h : starFrom p greedy i s k = some x) : ∃ j rest, k j rest = some x := by
  induction s generalizing i with
  | nil => exact ⟨i, [], h⟩
  | cons c s ih =>
    unfold starFrom at h
    cases greedy
    · simp only [Bool.false_eq_true, if_false] at h
      rcases orElse_eq_some _ _ _ h with h | h
      · exact ⟨_, _, h⟩
      · split at h
        · exact ih _ h
        · cases h
    · simp only [if_true] at h
      rcases orElse_eq_some _ _ _ h with h | h
      · split at h
        · exact ih _ h
        · cases h
      · exact ⟨_, _, h⟩

/-- Whatever a match attempt returns was returned by its continuation. -/
theorem Rx.run_some {α : Type} (r : Rx) (i : Nat) (s : List Char) (caps : Captures)
    (k : Nat → List Char → Captures → Option α) (x : α) (h : r.run i s caps k = some x) :
    ∃ j rest caps', k j rest caps' = some x := by
  induction r generalizing i s caps k with
  | chars w =>
    simp only [Rx.run] at h
    split at h
    · exact ⟨_, _, _, h⟩
    · cases h
  | one set =>
    simp only [Rx.run] at h
    split at h
    · split at h
      · exact ⟨_, _, _, h⟩
      · cases h
    · cases h
  | star set greedy =>
    simp only [Rx.run] at h
    obtain ⟨j, rest, hk⟩ := starFrom_some _ _ _ _ _ _ h
    exact ⟨j, rest, caps, hk⟩
  | bol =>
    simp only [Rx.run] at h
    split at h
    · exact ⟨_, _, _, h⟩
    · cases h
  | eol =>
    simp only [Rx.run] at h
    split at h
    · exact ⟨_, _, _, h⟩
    · cases h
  | notAhead r _ =>
    simp only [Rx.run] at h
    split at h
    · cases h
    · exact ⟨_, _, _, h⟩
  | group n r ih =>
    simp only [Rx.run] at h
    obtain ⟨j, rest, caps', hk⟩ := ih _ _ _ _ h
    exact ⟨_, _, _, hk⟩
  | seq a b iha ihb =>
    simp only [Rx.run] at h
    obtain ⟨j, rest, caps', hk⟩ := iha _ _ _ _ h
    exact ihb _ _ _ _ hk
  | alt a b iha ihb =>
    simp only [Rx.run] at h
    rcases orElse_eq_some _ _ _ h with h | h
    · exact iha _ _ _ _ h
    · exact ihb _ _ _ _ h

/-! ### Stripping the white space at both ends -/

theorem expand_nil (caps : Captures) : expand [] caps = [] := rfl

theorem whiteSpace_matchAt_nil (i : Nat) : strReg.whiteSpace.matchAt i [] = none := by
  simp [Rx.matchAt, strReg, Rx.run, Rx.plus]

/-- At index 0 on a string that starts with white space, `whiteSpace` matches the leading
run of white space. -/
theorem whiteSpace_matchAt_zero_space (c : Char) (t : List Char) (hc : isWhiteSpace c = true) :
    ∃ caps, strReg.whiteSpace.matchAt 0 (c :: t) =
      some (1 + (t.takeWhile isWhiteSpace).length, t.dropWhile isWhiteSpace, caps) := by
  have hmem : CharSet.space.mem = isWhiteSpace := by
    funext d; rfl
  simp only [Rx.matchAt, strReg, Rx.run, Rx.plus, if_true, hmem, hc]
  rw [starFrom_greedy_total]
  · exact ⟨_, rfl⟩
  · intro j rest; rfl

/-- At index 0 on a string that does not start with white space, `whiteSpace` does not
match. -/
theorem whiteSpace_matchAt_zero_other (c : Char) (t : List Char)
    (hc : isWhiteSpace c = false) : strReg.whiteSpace.matchAt 0 (c :: t) = none := by
  simp [Rx.matchAt, strReg, Rx.run, Rx.plus, CharSet.mem, hc]

/-- Past index 0, `whiteSpace` matches exactly a rest made of white space only. -/
theorem whiteSpace_matchAt_pos (i : Nat) (hi : 1 ≤ i) (c : Char) (t : List Char) :
    (((c :: t).all isWhiteSpace = true) →
      ∃ caps, strReg.whiteSpace.matchAt i (c :: t) = some (i + 1 + t.length, [], caps)) ∧
    (((c :: t).all isWhiteSpace = false) → strReg.whiteSpace.matchAt i (c :: t) = none) := by
  have hi0 : ¬ i = 0 := by omega
  have hmem : CharSet.space.mem = isWhiteSpace := by
    funext d; rfl
  constructor
  · intro hall
    simp only [List.all_cons, Bool.and_eq_true] at hall
    simp only [Rx.matchAt, strReg, Rx.run, Rx.plus, hi0, if_false, hmem, hall.1, if_true,
      Option.orElse]
    rw [starFrom_greedy_end isWhiteSpace _ (by intro j d u; simp)]
    simp only [hall.2, if_true, List.isEmpty_nil]
    exact ⟨_, rfl⟩
  · intro hall
    simp only [Rx.matchAt, strReg, Rx.run, Rx.plus, hi0, if_false, hmem, Option.orElse]
    by_cases hc : isWhiteSpace c = true
    · have ht : t.all isWhiteSpace = false := by
        simpa [List.all_cons, hc] using hall
      simp only [hc, if_true]
      rw [starFrom_greedy_end isWhiteSpace _ (by intro j d u; simp)]
      simp [ht]
    · simp [hc]

theorem stripEnd_cons (c : Char) (t : List Char) (h : (c :: t).all isWhiteSpace = false) :
    stripEnd (c :: t) = c :: stripEnd t := by
  simp [stripEnd, h]

theorem replaceAllFrom_succ (r : Rx) (template : List Piece) (fuel i : Nat) (s : List Char) :
    replaceAllFrom r template (fuel + 1) i s =
      match r.matchAt i s with
      | some m =>
        if m.1 = i then
          match s with
          | [] => expand template m.2.2
          | c :: s' => expand template m.2.2 ++ c :: replaceAllFrom r template fuel (i + 1) s'
        else expand template m.2.2 ++ replaceAllFrom r template fuel m.1 m.2.1
      | none =>
        match s with
        | [] => []
        | c :: s' => c :: replaceAllFrom r template fuel (i + 1) s' := rfl

theorem replaceAllFrom_nil (fuel i : Nat) :
    replaceAllFrom strReg.whiteSpace [] fuel i [] = [] := by
  cases fuel with
  | zero => rfl
  | succ fuel => simp [replaceAllFrom, whiteSpace_matchAt_nil]

/-- Past index 0, the global replacement by the empty string removes the white space at
the end. -/
theorem replaceAllFrom_pos (fuel i : Nat) (s : List Char) (hi : 1 ≤ i)
    (hfuel : s.length < fuel) : replaceAllFrom strReg.whiteSpace [] fuel i s = stripEnd s := by
  induction fuel generalizing i s with
  | zero => omega
  | succ fuel ih =>
    cases s with
    | nil => simp [replaceAllFrom, whiteSpace_matchAt_nil, stripEnd]
    | cons c t =>
      have hlen : t.length < fuel := by
        simp only [List.length_cons] at hfuel; omega
      cases hall : (c :: t).all isWhiteSpace with
      | true =>
        obtain ⟨caps, hm⟩ := (whiteSpace_matchAt_pos i hi c t).1 hall
        have hne : ¬ i + 1 + t.length = i := by omega
        simp only [replaceAllFrom, hm, hne, if_false, expand_nil, List.nil_append,
          replaceAllFrom_nil, stripEnd, hall, if_true]
      | false =>
        have hm := (whiteSpace_matchAt_pos i hi c t).2 hall
        simp only [replaceAllFrom, hm, stripEnd, hall, Bool.false_eq_true, if_false]
        rw [ih (i + 1) t (by omega) hlen]

/-- The replacement `replace(strReg.whiteSpace, '')` strips the white space at both ends. -/
theorem replaceAllFrom_whiteSpace (s : List Char) :
    replaceAllFrom strReg.whiteSpace [] (s.length + 1) 0 s = strip s := by
  cases s with
  | nil => simp [replaceAllFrom, whiteSpace_matchAt_nil, strip, stripEnd]
  | cons c t =>
    cases hc : isWhiteSpace c with
    | true =>
      obtain ⟨caps, hm⟩ := whiteSpace_matchAt_zero_space c t hc
      have hne : ¬ 1 + (t.takeWhile isWhiteSpace).length = 0 := by omega
      have hlen : (t.dropWhile isWhiteSpace).length < (c :: t).length := by
        have := (List.dropWhile_sublist isWhiteSpace (l := t)).length_le
        simp only [List.length_cons]; omega
      rw [replaceAllFrom_succ, hm]
      simp only [hne, if_false, expand_nil, List.nil_append, strip, List.dropWhile_cons, hc,
        if_true]
      exact replaceAllFrom_pos _ _ _ (by omega) hlen
    | false =>
      have hm := whiteSpace_matchAt_zero_other c t hc
      have hall : (c :: t).all isWhiteSpace = false := by simp [hc]
      rw [replaceAllFrom_succ, hm]
      simp only [strip, List.dropWhile_cons, hc, Bool.false_eq_true, if_false]
      rw [replaceAllFrom_pos _ _ _ (by omega) (by simp), stripEnd_cons c t hall]

theorem all_stripEnd (s : List Char) (h : s.all isWhiteSpace = false) :
    (stripEnd s).all isWhiteSpace = false := by
  induction s with
  | nil => simp at h
  | cons c t ih =>
    simp only [stripEnd, h, Bool.false_eq_true, if_false]
    by_cases hc : isWhiteSpace c = true
    · have ht : t.all isWhiteSpace = false := by simpa [List.all_cons, hc] using h
      simp [List.all_cons, hc, ih ht]
    · simp [List.all_cons, hc]

theorem stripEnd_idem (s : List Char) : stripEnd (stripEnd s) = stripEnd s := by
  induction s with
  | nil => rfl
  | cons c t ih =>
    cases hall : (c :: t).all isWhiteSpace with
    | true => simp [stripEnd, hall]
    | false =>
      have h1 : stripEnd (c :: t) = c :: stripEnd t := by simp [stripEnd, hall]
      have h2 : (c :: stripEnd t).all isWhiteSpace = false := by
        rw [← h1]; exact all_stripEnd _ hall
      rw [h1]
      simp only [stripEnd, h2, Bool.false_eq_true, if_false, ih]

theorem stripEnd_append_left (p y : List Char) (hp : ∀ c ∈ p, isWhiteSpace c = false) :
    stripEnd (p ++ y) = p ++ stripEnd y := by
  induction p with
  | nil => rfl
  | cons c p ih =>
    have hc : isWhiteSpace c = false := hp c (List.mem_cons_self _ _)
    have hall : (c :: (p ++ y)).all isWhiteSpace = false := by simp [hc]
    rw [List.cons_append, stripEnd_cons c (p ++ y) hall,
      ih fun d hd => hp d (List.mem_cons_of_mem _ hd), List.cons_append]

theorem dropWhile_stripEnd (s : List Char) :
    (stripEnd (s.dropWhile isWhiteSpace)).dropWhile isWhiteSpace =
      stripEnd (s.dropWhile isWhiteSpace) := by
  cases h : s.dropWhile isWhiteSpace with
  | nil => rfl
  | cons c t =>
    have hc : isWhiteSpace c = false := by
      have := List.head_dropWhile_not isWhiteSpace s (by rw [h]; simp)
      simpa [h] using this
    have hall : (c :: t).all isWhiteSpace = false := by simp [hc]
    simp [stripEnd, hall, List.dropWhile_cons, hc]

/-- Stripping a stripped string changes nothing. -/
theorem strip_strip (s : List Char) : strip (strip s) = strip s := by
  unfold strip
  rw [dropWhile_stripEnd, stripEnd_idem]

/-- A stripped string stays stripped under a prefix without white space. -/
theorem strip_append_left (p y : List Char) (hne : p ≠ []) (hp : ∀ c ∈ p, isWhiteSpace c = false)
    (hy : strip y = y) : strip (p ++ y) = p ++ y := by
  have hend : stripEnd y = y := by
    have h := stripEnd_idem (y.dropWhile isWhiteSpace)
    unfold strip at hy
    rw [hy] at h
    exact h
  cases p with
  | nil => exact absurd rfl hne
  | cons c p =>
    have hc : isWhiteSpace c = false := hp c (List.mem_cons_self _ _)
    unfold strip
    rw [show (c :: p ++ y).dropWhile isWhiteSpace = c :: p ++ y by
      simp [List.dropWhile_cons, hc]]
    rw [stripEnd_append_left (c :: p) y hp, hend]

/-! ### Patterns of the shape `^(?!…)(…)$` -/

theorem getCapture_setCapture (caps : Captures) (n : Nat) (text : List Char) :
    getCapture (setCapture caps n text) n = text := by
  simp [getCapture, setCapture, List.lookup]

/-- A match of `^(?!L)(G)$` ends at the end of the input and captures the whole input. -/
theorem anchored_matchAt (L G : Rx) (s : List Char) (m : Nat × List Char × Captures)
    (h : (Rx.seq .bol (.seq (.notAhead L) (.seq (.group 1 G) .eol))).matchAt 0 s = some m) :
    m.2.1 = [] ∧ getCapture m.2.2 1 = s := by
  simp only [Rx.matchAt, Rx.run, if_true] at h
  split at h
  · cases h
  · obtain ⟨j, rest, caps', hk⟩ := Rx.run_some _ _ _ _ _ _ h
    split at hk
    · rename_i hrest
      have hnil : rest = [] := List.isEmpty_iff.1 hrest
      subst hnil
      cases hk
      exact ⟨rfl, by simp [getCapture_setCapture]⟩
    · cases hk

/-- The pattern `^(?!L)(G)$` matches nowhere past index 0. -/
theorem anchored_matchAt_pos (L G : Rx) (i : Nat) (hi : 1 ≤ i) (s : List Char) :
    (Rx.seq .bol (.seq (.notAhead L) (.seq (.group 1 G) .eol))).matchAt i s = none := by
  have hi0 : ¬ i = 0 := by omega
  simp [Rx.matchAt, Rx.run, hi0]

/-- The pattern `^(?!L)(G)$` does not match an input on which the lookahead `L` matches. -/
theorem anchored_blocked (L G : Rx) (s : List Char)
    (h : (L.run 0 s [] fun _ _ _ => some ()).isSome = true) :
    (Rx.seq .bol (.seq (.notAhead L) (.seq (.group 1 G) .eol))).matchAt 0 s = none := by
  obtain ⟨u, hu⟩ := Option.isSome_iff_exists.1 h
  simp [Rx.matchAt, Rx.run, hu]

theorem replaceFirstFrom_none (r : Rx) (template : List Piece) (i : Nat) (s : List Char)
    (h : ∀ j s', i ≤ j → r.matchAt j s' = none) : replaceFirstFrom r template i s = s := by
  induction s generalizing i with
  | nil => simp [replaceFirstFrom, h i [] (Nat.le_refl _)]
  | cons c t ih =>
    simp only [replaceFirstFrom, h i (c :: t) (Nat.le_refl _)]
    rw [ih (i + 1) fun j s' hj => h j s' (by omega)]

/-- With a pattern `^(?!L)(G)$` and the replacement `pre$1`, `replace` leaves the input as
it is when the pattern does not match at index 0, and puts `pre` in front of it when it
does. -/
theorem replaceFirstFrom_anchored (L G : Rx) (pre : String) (s : List Char) :
    replaceFirstFrom (Rx.seq .bol (.seq (.notAhead L) (.seq (.group 1 G) .eol)))
        [.text pre, .ref 1] 0 s =
      if ((Rx.seq .bol (.seq (.notAhead L) (.seq (.group 1 G) .eol))).matchAt 0 s).isSome = true
      then pre.data ++ s else s := by
  cases hm : (Rx.seq .bol (.seq (.notAhead L) (.seq (.group 1 G) .eol))).matchAt 0 s with
  | none =>
    simp only [Option.isSome_none, Bool.false_eq_true, if_false]
    cases s with
    | nil => simp [replaceFirstFrom, hm]
    | cons c t =>
      simp only [replaceFirstFrom, hm]
      rw [replaceFirstFrom_none _ _ _ _ fun j s' hj => anchored_matchAt_pos L G j hj s']
  | some m =>
    obtain ⟨hrest, hcap⟩ := anchored_matchAt L G s m hm
    simp only [Option.isSome_some, if_true]
    cases s with
    | nil => simp [replaceFirstFrom, hm, expand, hrest, hcap]
    | cons c t => simp [replaceFirstFrom, hm, expand, hrest, hcap]

/-! ### The two prefixes block both patterns -/

theorem mailTo_blocked_mailto (y : List Char) :
    strReg.mailTo.matchAt 0 ("mailto:".data ++ y) = none := by
  apply anchored_blocked
  simp [Rx.run, litFrom, canonicalize]

theorem http_blocked_mailto (y : List Char) :
    strReg.http.matchAt 0 ("mailto:".data ++ y) = none := by
  apply anchored_blocked
  simp only [Rx.run]
  apply isSome_orElse_right
  apply isSome_orElse_left
  simp [litFrom, canonicalize]

theorem http_blocked_http (y : List Char) :
    strReg.http.matchAt 0 ("http://".data ++ y) = none := by
  apply anchored_blocked
  simp only [Rx.run, Rx.plus]
  apply isSome_orElse_left
  have hh : CharSet.word.mem 'h' = true := by decide
  have hstar := starFrom_isSome CharSet.word.mem false
    (fun j rest => (Rx.chars "://".data).run j rest [] fun _ _ _ => some ())
    "ttp".data ("://".data ++ y) 1 (by decide) (by simp [Rx.run, litFrom, canonicalize])
  simpa [hh] using hstar

theorem mailTo_blocked_http (y : List Char) :
    strReg.mailTo.matchAt 0 ("http://".data ++ y) = none := by
  apply anchored_blocked
  simp only [Rx.run, Rx.plus]
  apply isSome_orElse_right
  apply isSome_orElse_left
  have hh : CharSet.any.mem 'h' = true := by decide
  have hstar := starFrom_isSome CharSet.any.mem true
    (fun j rest => (Rx.chars "/".data).run j rest [] fun _ _ _ => some ())
    "ttp:".data ("//".data ++ y) 1 (by decide) (by simp [Rx.run, litFrom, canonicalize])
  simpa [hh] using hstar

/-! ### Idempotence -/

theorem normalizeLink_eq (x : List Char) :
    normalizeLink x =
      replaceFirstFrom strReg.http [.text "http://", .ref 1] 0
        (replaceFirstFrom strReg.mailTo [.text "mailto:", .ref 1] 0 (strip x)) := by
  simp only [normalizeLink, replaceAllFrom_whiteSpace]

theorem replaceFirstFrom_mailTo (s : List Char) :
    replaceFirstFrom strReg.mailTo [.text "mailto:", .ref 1] 0 s =
      if (strReg.mailTo.matchAt 0 s).isSome = true then "mailto:".data ++ s else s :=
  replaceFirstFrom_anchored _ _ "mailto:" s

theorem replaceFirstFrom_http (s : List Char) :
    replaceFirstFrom strReg.http [.text "http://", .ref 1] 0 s =
      if (strReg.http.matchAt 0 s).isSome = true then "http://".data ++ s else s :=
  replaceFirstFrom_anchored _ _ "http://" s

/-- A stripped string that neither pattern matches is left as it is. -/
theorem normalizeLink_fixed (z : List Char) (hs : strip z = z)
    (hm : strReg.mailTo.matchAt 0 z = none) (hh : strReg.http.matchAt 0 z = none) :
    normalizeLink z = z := by
  rw [normalizeLink_eq, hs, replaceFirstFrom_mailTo, hm]
  simp only [Option.isSome_none, Bool.false_eq_true, if_false]
  rw [replaceFirstFrom_http, hh]
  simp

theorem normalizeLink_idem (x : List Char) : normalizeLink (normalizeLink x) = normalizeLink x := by
  have hy : strip (strip x) = strip x := strip_strip x
  by_cases hm : (strReg.mailTo.matchAt 0 (strip x)).isSome = true
  · have hval : normalizeLink x = "mailto:".data ++ strip x := by
      rw [normalizeLink_eq, replaceFirstFrom_mailTo, if_pos hm, replaceFirstFrom_http,
        http_blocked_mailto]
      simp
    rw [hval]
    exact normalizeLink_fixed _ (strip_append_left _ _ (by decide) (by decide) hy)
      (mailTo_blocked_mailto _) (http_blocked_mailto _)
  · have hm' : strReg.mailTo.matchAt 0 (strip x) = none := by
      cases h : strReg.mailTo.matchAt 0 (strip x) with
      | none => rfl
      | some m => rw [h] at hm; simp at hm
    by_cases hh : (strReg.http.matchAt 0 (strip x)).isSome = true
    · have hval : normalizeLink x = "http://".data ++ strip x := by
        rw [normalizeLink_eq, replaceFirstFrom_mailTo, if_neg hm, replaceFirstFrom_http,
          if_pos hh]
      rw [hval]
      exact normalizeLink_fixed _ (strip_append_left _ _ (by decide) (by decide) hy)
        (mailTo_blocked_http _) (http_blocked_http _)
    · have hh' : strReg.http.matchAt 0 (strip x) = none := by
        cases h : strReg.http.matchAt 0 (strip x) with
        | none => rfl
        | some m => rw [h] at hh; simp at hh
      have hval : normalizeLink x = strip x := by
        rw [normalizeLink_eq, replaceFirstFrom_mailTo, if_neg hm, replaceFirstFrom_http,
          if_neg hh]
      rw [hval]
      exact normalizeLink_fixed _ hy hm' hh'

/-- C11: the value `createlink` computes from the link input (strip the white space at
both ends, then `replace(strReg.mailTo, 'mailto:$1')`, then
`replace(strReg.http, 'http://$1')`) is idempotent: computing it again from a value it
produced gives the same value, for every input string. -/
theorem inputValue_idempotent (x : String) : inputValue (inputValue x) = inputValue x := by
  unfold inputValue
  simp only [normalizeLink_idem]

/-- Values of `inputValue` on sample inputs: an address gets `mailto:`, a host name gets
`http://`, an absolute URL, a path and a `mailto:` link are kept, an address followed by a
path gets `http://`, and white space only gives `http://`. -/
theorem inputValue_samples :
    inputValue " a@b.c " = "mailto:a@b.c" ∧
    inputValue "example.com" = "http://example.com" ∧
    inputValue "https://x.y/z" = "https://x.y/z" ∧
    inputValue "/path" = "/path" ∧
    inputValue "mailto:a@b.c" = "mailto:a@b.c" ∧
    inputValue "a@b.c/d" = "http://a@b.c/d" ∧
    inputValue "  " = "http://" := by
  decide


end PenJs
